import Mathlib

/-!
Verification of the zotaskqueue core against its specification.

The development shallowly embeds the repository's core:
the abstract `Worker` lifecycle state machine
(`packages/core/src/worker.ts`), the `Pool` registry
(`packages/core/src/pool.ts`) and the `Master` scheduler
(`packages/core/src/master.ts`).  Pure functions of the source become
Lean functions; the event-driven scheduler becomes an executable step
function over an explicit scheduler state, one step per atomic status
transition (a status assignment together with the synchronous
`update:status` handler, which the source runs as one unit).
-/

/-- Worker lifecycle statuses, from `packages/core/src/types.ts`. -/
inductive STATUS
  | INITIALED
  | PENDING
  | RUNNING
  | COMPLETE
  | ERROR
  | TIMEOUT
  | CANCELLED
  | PAUSED
deriving DecidableEq, Repr

/-- Options accepted by the `Worker` constructor (`WorkerOptions` in
worker.ts).  `none` models an omitted (`undefined`) field. -/
structure WorkerOptions where
  retries : Option Nat := none
  retryAfterMs : Option Nat := none
  retryOnError : Option Bool := none
  retryOnTimeout : Option Bool := none
deriving DecidableEq, Repr

/-- JavaScript `a || d` for an optional boolean `a`: both `undefined` and
`false` are falsy, so the result is the default unless the value is `true`. -/
def jsOrBool : Option Bool → Bool → Bool
  | some b, d => b || d
  | none, d => d

/-- JavaScript `a || d` for an optional number `a`: `undefined` and `0` are
falsy. -/
def jsOrNat : Option Nat → Nat → Nat
  | some n, d => if n = 0 then d else n
  | none, d => d

/-- State of one `Worker` (worker.ts): identity, the status machine fields,
progress, and the retry policy captured by the constructor's field
initializers (worker.ts lines 43-57). -/
structure Worker where
  id : Nat
  status : STATUS
  prevStatus : Option STATUS
  progress : ℚ
  retries : Nat
  retryAfterMs : Nat
  retryOnError : Bool
  retryOnTimeout : Bool
deriving DecidableEq, Repr

/-- `new Worker(options)`: the field initializers of worker.ts lines 43-57,
in particular `retries = options.retries || 0`,
`retryOnError = options.retryOnError || true` and
`retryOnTimeout = options.retryOnTimeout || true`. -/
def mkWorker (id : Nat) (options : WorkerOptions) : Worker :=
  { id := id
    status := STATUS.INITIALED
    prevStatus := none
    progress := 0
    retries := jsOrNat options.retries 0
    retryAfterMs := jsOrNat options.retryAfterMs 0
    retryOnError := jsOrBool options.retryOnError true
    retryOnTimeout := jsOrBool options.retryOnTimeout true }

/-- `Worker.setProgress` (worker.ts lines 166-168). -/
def Worker.setProgress (w : Worker) (progress : ℚ) : Worker :=
  { w with progress := progress }

/-- `Worker.setStatus` (worker.ts lines 170-182): record the previous status,
assign the new one, and reset progress when entering PENDING from any status
other than PAUSED.  The trailing `emit('update:status')` is what triggers the
scheduler's `updateStatus`; the scheduler model applies it atomically with
this assignment. -/
def Worker.setStatus (w : Worker) (status : STATUS) : Worker :=
  let w1 : Worker := { w with prevStatus := some w.status, status := status }
  if w1.status = STATUS.PENDING ∧ w1.prevStatus ≠ some STATUS.PAUSED then
    if w1.progress ≠ 0 then w1.setProgress 0 else w1
  else w1

/-- Worker events named in worker.ts; `updateStatus` stands for the
`update:status` event. -/
inductive WEvent
  | run | complete | error | timeout | cancel | pause | resume
  | update | updateStatus | finish | retry
deriving DecidableEq, Repr

/-- `Worker.pending()` (worker.ts lines 195-201): no-op when already PENDING
or RUNNING; otherwise transition to PENDING (which emits `update:status`) and
emit `update`.  Returns the new worker state and the events emitted, in
order. -/
def Worker.pendingOp (w : Worker) : Worker × List WEvent :=
  if w.status = STATUS.PENDING then (w, [])
  else if w.status = STATUS.RUNNING then (w, [])
  else (w.setStatus STATUS.PENDING, [WEvent.updateStatus, WEvent.update])

/-- The constructor's `retry` handler (worker.ts lines 111-119): do nothing
when the budget is exhausted, otherwise decrement it and schedule `pending()`
after `retryAfterMs`.  The boolean reports whether a retry was scheduled. -/
def Worker.onRetry (w : Worker) : Worker × Bool :=
  if w.retries = 0 then (w, false)
  else ({ w with retries := w.retries - 1 }, true)

/-- The constructor's `error` handler (worker.ts lines 71-82): enter ERROR
and, when `retryOnError` is set, emit `retry` (the `retry` handler runs
synchronously). -/
def Worker.onError (w : Worker) : Worker × Bool :=
  let w1 := w.setStatus STATUS.ERROR
  if w1.retryOnError then w1.onRetry else (w1, false)

/-- The constructor's `timeout` handler (worker.ts lines 83-94), analogous to
the `error` handler with `retryOnTimeout`. -/
def Worker.onTimeoutEvent (w : Worker) : Worker × Bool :=
  let w1 := w.setStatus STATUS.TIMEOUT
  if w1.retryOnTimeout then w1.onRetry else (w1, false)

/-- One failed attempt of an admitted worker under a job that always fails:
the job acknowledges start (the `run` handler, worker.ts lines 60-64, sets
RUNNING) and then reports failure (the `error` handler). -/
def Worker.failOnce (w : Worker) : Worker × Bool :=
  (w.setStatus STATUS.RUNNING).onError

theorem Worker.setStatus_retries (w : Worker) (s : STATUS) :
    (w.setStatus s).retries = w.retries := by
  unfold Worker.setStatus Worker.setProgress
  dsimp only
  split <;> [skip; rfl]
  split <;> rfl

theorem Worker.setStatus_retryOnError (w : Worker) (s : STATUS) :
    (w.setStatus s).retryOnError = w.retryOnError := by
  unfold Worker.setStatus Worker.setProgress
  dsimp only
  split <;> [skip; rfl]
  split <;> rfl

theorem Worker.setStatus_status (w : Worker) (s : STATUS) :
    (w.setStatus s).status = s := by
  unfold Worker.setStatus Worker.setProgress
  dsimp only
  split <;> [skip; rfl]
  split <;> rfl

theorem Worker.setStatus_prevStatus (w : Worker) (s : STATUS) :
    (w.setStatus s).prevStatus = some w.status := by
  unfold Worker.setStatus Worker.setProgress
  dsimp only
  split <;> [skip; rfl]
  split <;> rfl

theorem Worker.pendingOp_retries (w : Worker) :
    w.pendingOp.1.retries = w.retries := by
  unfold Worker.pendingOp
  split <;> [rfl; split <;> [rfl; exact w.setStatus_retries _]]

theorem Worker.pendingOp_retryOnError (w : Worker) :
    w.pendingOp.1.retryOnError = w.retryOnError := by
  unfold Worker.pendingOp
  split <;> [rfl; split <;> [rfl; exact w.setStatus_retryOnError _]]

theorem Worker.failOnce_retries (w : Worker) :
    w.failOnce.2 = true → w.failOnce.1.retries + 1 = w.retries := by
  unfold Worker.failOnce Worker.onError Worker.onRetry
  dsimp only
  intro h
  rw [Worker.setStatus_retries, Worker.setStatus_retries] at *
  split at h
  · split at h
    · simp at h
    · simp_all
      omega
  · simp at h

/-- Repeatedly run a worker whose job fails on every attempt, following each
scheduled retry through `pending()`, until the `retry` handler schedules no
further attempt.  Returns the number of times the worker entered ERROR
together with the final worker state. -/
def Worker.errorsToExhaustion (w : Worker) : Nat × Worker :=
  let p := w.failOnce
  if h : p.2 then
    let q := p.1.pendingOp.1.errorsToExhaustion
    (q.1 + 1, q.2)
  else (1, p.1)
termination_by w.retries
decreasing_by
  have h1 := Worker.failOnce_retries w h
  have h2 := Worker.pendingOp_retries (w.failOnce).1
  omega

theorem Worker.failOnce_spec (w : Worker) (hf : w.retryOnError = true) :
    w.failOnce.2 = decide (w.retries ≠ 0)
    ∧ w.failOnce.1.status = STATUS.ERROR
    ∧ w.failOnce.1.retries = w.retries - 1
    ∧ w.failOnce.1.retryOnError = true := by
  unfold Worker.failOnce Worker.onError Worker.onRetry
  dsimp only
  rw [Worker.setStatus_retryOnError, Worker.setStatus_retryOnError,
    Worker.setStatus_retries, Worker.setStatus_retries, hf]
  simp only [if_true]
  by_cases h : w.retries = 0
  · simp [h, hf, Worker.setStatus_status, Worker.setStatus_retries,
      Worker.setStatus_retryOnError]
  · simp [h, hf, Worker.setStatus_status, Worker.setStatus_retryOnError,
      Worker.setStatus_retries]

theorem Worker.errorsToExhaustion_spec :
    ∀ (n : Nat) (w : Worker), w.retries = n → w.retryOnError = true →
      w.errorsToExhaustion.1 = n + 1
      ∧ w.errorsToExhaustion.2.retries = 0
      ∧ w.errorsToExhaustion.2.status = STATUS.ERROR
      ∧ w.errorsToExhaustion.2.onRetry.2 = false := by
  intro n
  induction n with
  | zero =>
    intro w hr hf
    obtain ⟨h2, hst, hretr, _⟩ := Worker.failOnce_spec w hf
    have hfalse : w.failOnce.2 = false := by simp [h2, hr]
    rw [Worker.errorsToExhaustion]
    simp only [hfalse]
    refine ⟨rfl, ?_, ?_, ?_⟩
    · simp [hretr, hr]
    · exact hst
    · unfold Worker.onRetry
      simp [hretr, hr]
  | succ n ih =>
    intro w hr hf
    obtain ⟨h2, hst, hretr, hre⟩ := Worker.failOnce_spec w hf
    have htrue : w.failOnce.2 = true := by simp [h2, hr]
    have hr' : w.failOnce.1.pendingOp.1.retries = n := by
      rw [Worker.pendingOp_retries, hretr, hr]
      omega
    have hf' : w.failOnce.1.pendingOp.1.retryOnError = true := by
      rw [Worker.pendingOp_retryOnError, hre]
    obtain ⟨q1, q2, q3, q4⟩ := ih _ hr' hf'
    rw [Worker.errorsToExhaustion]
    simp only [htrue, dite_true]
    exact ⟨by rw [q1], q2, q3, q4⟩

/-- C4.  Retry exhaustion: a Worker created with `retries = N` and
`retryOnError = true`, whose job fails on every attempt, enters ERROR exactly
`N + 1` times, ends with its retry budget at `0` in status ERROR, and after
the last ERROR the `retry` handler schedules no further automatic retry. -/
theorem retry_exhaustion (N : Nat) (options : WorkerOptions)
    (hr : options.retries = some N) (hf : options.retryOnError = some true) :
    ((mkWorker 0 options).pendingOp.1.errorsToExhaustion).1 = N + 1
    ∧ ((mkWorker 0 options).pendingOp.1.errorsToExhaustion).2.retries = 0
    ∧ ((mkWorker 0 options).pendingOp.1.errorsToExhaustion).2.status = STATUS.ERROR
    ∧ ((mkWorker 0 options).pendingOp.1.errorsToExhaustion).2.onRetry.2 = false := by
  have h1 : (mkWorker 0 options).pendingOp.1.retries = N := by
    rw [Worker.pendingOp_retries]
    simp only [mkWorker, hr, jsOrNat]
    split <;> omega
  have h2 : (mkWorker 0 options).pendingOp.1.retryOnError = true := by
    rw [Worker.pendingOp_retryOnError]
    simp [mkWorker, hf, jsOrBool]
  exact Worker.errorsToExhaustion_spec N _ h1 h2

/-- Witness for `retry_exhaustion` at `N = 2`. -/
theorem retry_exhaustion_witness :
    ((mkWorker 0 { retries := some 2, retryOnError := some true }).pendingOp.1.errorsToExhaustion).1 = 3
    ∧ ((mkWorker 0 { retries := some 2, retryOnError := some true }).pendingOp.1.errorsToExhaustion).2.retries = 0 := by
  have h := retry_exhaustion 2 { retries := some 2, retryOnError := some true } rfl rfl
  exact ⟨h.1, h.2.1⟩

/-- C5.  The claim says a Worker created with `retryOnError = false` never
auto-retries after ERROR.  The code computes
`this.retryOnError = this.options.retryOnError || true` (worker.ts line 56),
which is `true` even when the option is `false`; at the failing input below
(a Worker created with `retries = 1, retryOnError = false` whose job fails)
the worker does schedule an automatic retry, decrementing its budget. -/
theorem retryOnError_flag_cannot_be_disabled :
    (mkWorker 0 { retries := some 1, retryOnError := some false }).retryOnError = true
    ∧ ((mkWorker 0 { retries := some 1, retryOnError := some false }).pendingOp.1.failOnce).2 = true
    ∧ ((mkWorker 0 { retries := some 1, retryOnError := some false }).pendingOp.1.failOnce).1.retries = 0 := by
  decide

/-- C6.  `pending()` is a no-op (no state change, no events) for a Worker
already PENDING or RUNNING; from any other status it transitions to PENDING,
emits `update:status` and `update`, records the previous status, and resets
progress to `0` unless the previous status was PAUSED, in which case progress
is preserved. -/
theorem pending_contract (w : Worker) :
    ((w.status = STATUS.PENDING ∨ w.status = STATUS.RUNNING) → w.pendingOp = (w, []))
    ∧ (w.status ≠ STATUS.PENDING → w.status ≠ STATUS.RUNNING →
        w.pendingOp.1.status = STATUS.PENDING
        ∧ w.pendingOp.2 = [WEvent.updateStatus, WEvent.update]
        ∧ w.pendingOp.1.prevStatus = some w.status
        ∧ w.pendingOp.1.progress = (if w.status = STATUS.PAUSED then w.progress else 0)) := by
  constructor
  · intro h
    unfold Worker.pendingOp
    rcases h with h | h <;> simp [h]
  · intro h1 h2
    have he : w.pendingOp = (w.setStatus STATUS.PENDING, [WEvent.updateStatus, WEvent.update]) := by
      unfold Worker.pendingOp
      simp [h1, h2]
    rw [he]
    refine ⟨Worker.setStatus_status w _, rfl, Worker.setStatus_prevStatus w _, ?_⟩
    unfold Worker.setStatus Worker.setProgress
    dsimp only
    by_cases hp : w.status = STATUS.PAUSED
    · simp [hp]
    · by_cases hz : w.progress = 0 <;> simp [hp, hz]

/-- Witness for `pending_contract`: a PAUSED worker with progress `1` keeps
its progress, and a COMPLETE worker with progress `1` has it reset to `0`. -/
theorem pending_contract_witness :
    ((⟨0, STATUS.PAUSED, some STATUS.RUNNING, 1, 0, 0, true, true⟩ : Worker).pendingOp.1.progress = 1
      ∧ (⟨0, STATUS.PAUSED, some STATUS.RUNNING, 1, 0, 0, true, true⟩ : Worker).pendingOp.1.status = STATUS.PENDING)
    ∧ ((⟨1, STATUS.COMPLETE, some STATUS.RUNNING, 1, 0, 0, true, true⟩ : Worker).pendingOp.1.progress = 0
      ∧ (⟨2, STATUS.RUNNING, some STATUS.PENDING, 1, 0, 0, true, true⟩ : Worker).pendingOp
          = (⟨2, STATUS.RUNNING, some STATUS.PENDING, 1, 0, 0, true, true⟩, [])) := by
  have h1 := pending_contract ⟨0, STATUS.PAUSED, some STATUS.RUNNING, 1, 0, 0, true, true⟩
  have h2 := pending_contract ⟨1, STATUS.COMPLETE, some STATUS.RUNNING, 1, 0, 0, true, true⟩
  have h3 := pending_contract ⟨2, STATUS.RUNNING, some STATUS.PENDING, 1, 0, 0, true, true⟩
  obtain ⟨-, hb1⟩ := h1
  obtain ⟨-, hb2⟩ := h2
  obtain ⟨ha3, -⟩ := h3
  refine ⟨⟨?_, ?_⟩, ?_, ?_⟩
  · have := (hb1 (by decide) (by decide)).2.2.2
    simpa using this
  · exact (hb1 (by decide) (by decide)).1
  · have := (hb2 (by decide) (by decide)).2.2.2
    simpa using this
  · exact ha3 (Or.inr rfl)

/-- C7.  Status history: `setStatus` always records the status held
immediately before the transition in `prevStatus`, and for a freshly
constructed Worker subjected to any sequence of transitions, `prevStatus`
is `null` exactly when no transition has happened yet. -/
theorem prevStatus_history :
    (∀ (w : Worker) (s : STATUS), (w.setStatus s).prevStatus = some w.status)
    ∧ (∀ (id : Nat) (options : WorkerOptions) (l : List STATUS),
        ((l.foldl Worker.setStatus (mkWorker id options)).prevStatus = none ↔ l = [])) := by
  constructor
  · exact Worker.setStatus_prevStatus
  · intro id options l
    constructor
    · intro h
      by_contra hne
      obtain ⟨x, xs, rfl⟩ := List.exists_cons_of_ne_nil hne
      have key : ∀ (xs : List STATUS) (w : Worker), w.prevStatus.isSome →
          (xs.foldl Worker.setStatus w).prevStatus.isSome := by
        intro xs
        induction xs with
        | nil => intro w hw; simpa using hw
        | cons y ys ih =>
          intro w hw
          rw [List.foldl_cons]
          exact ih _ (by simp [Worker.setStatus_prevStatus])
      have h2 := key xs ((mkWorker id options).setStatus x)
        (by simp [Worker.setStatus_prevStatus])
      rw [List.foldl_cons] at h
      rw [h] at h2
      simp at h2
    · intro h
      subst h
      rfl

/-- Primitive effects a `run()`/`cancel()` promise executor can perform, in
source order (worker.ts lines 203-250). -/
inductive PromiseAction
  | armAckDeadline
  | addRunListener
  | addCancelListener
  | callHandle
  | callAbort
deriving DecidableEq, Repr

/-- Whether an executor action can ever settle the promise: the 3000 ms
acknowledgment deadline rejects, an attached `run`/`cancel` listener
resolves, and a throwing `abort()` is caught and rejects; invoking
`handle()` itself neither resolves nor rejects. -/
def PromiseAction.canSettlePromise : PromiseAction → Bool
  | .armAckDeadline => true
  | .addRunListener => true
  | .addCancelListener => true
  | .callHandle => false
  | .callAbort => true

/-- Whether any performed action can ever settle the promise. -/
def canEverSettle (actions : List PromiseAction) : Bool :=
  actions.any PromiseAction.canSettlePromise

/-- Actions performed by the `run()` promise executor (worker.ts lines
203-222): the guard `if (this.status === RUNNING) return` fires before the
acknowledgment deadline is armed; otherwise the deadline is armed, a `run`
listener is attached, and `handle()` is invoked. -/
def runExecutorActions (w : Worker) : List PromiseAction :=
  if w.status = STATUS.RUNNING then []
  else [PromiseAction.armAckDeadline, PromiseAction.addRunListener,
    PromiseAction.callHandle]

/-- Actions performed by the `cancel()` promise executor (worker.ts lines
224-250): the guard returns when the status is neither PENDING nor RUNNING;
otherwise the deadline is armed, a `cancel` listener is attached, and
`abort()` is invoked. -/
def cancelExecutorActions (w : Worker) : List PromiseAction :=
  if w.status ≠ STATUS.PENDING ∧ w.status ≠ STATUS.RUNNING then []
  else [PromiseAction.armAckDeadline, PromiseAction.addCancelListener,
    PromiseAction.callAbort]

/-- C10.  `run()` on an already-RUNNING Worker, and `cancel()` on a Worker
that is neither PENDING nor RUNNING, execute no actions at all: no deadline
is armed, `handle()`/`abort()` is not invoked, and nothing that could ever
resolve or reject the promise is registered, so the returned promise never
settles. -/
theorem guarded_promises_never_settle (w : Worker) :
    (w.status = STATUS.RUNNING →
      runExecutorActions w = []
      ∧ canEverSettle (runExecutorActions w) = false
      ∧ PromiseAction.callHandle ∉ runExecutorActions w)
    ∧ (w.status ≠ STATUS.PENDING → w.status ≠ STATUS.RUNNING →
      cancelExecutorActions w = []
      ∧ canEverSettle (cancelExecutorActions w) = false
      ∧ PromiseAction.callAbort ∉ cancelExecutorActions w) := by
  constructor
  · intro h
    simp [runExecutorActions, h, canEverSettle]
  · intro h1 h2
    simp [cancelExecutorActions, h1, h2, canEverSettle]

/-- Witness for `guarded_promises_never_settle`: a RUNNING worker's `run()`
and a COMPLETE worker's `cancel()`. -/
theorem guarded_promises_never_settle_witness :
    (runExecutorActions ⟨0, STATUS.RUNNING, some STATUS.PENDING, 0, 0, 0, true, true⟩ = []
      ∧ canEverSettle (cancelExecutorActions ⟨1, STATUS.COMPLETE, some STATUS.RUNNING, 0, 0, 0, true, true⟩) = false) := by
  have h1 := guarded_promises_never_settle ⟨0, STATUS.RUNNING, some STATUS.PENDING, 0, 0, 0, true, true⟩
  have h2 := guarded_promises_never_settle ⟨1, STATUS.COMPLETE, some STATUS.RUNNING, 0, 0, 0, true, true⟩
  exact ⟨(h1.1 rfl).1, (h2.2 (by decide) (by decide)).2.1⟩

/-- Scheduler-level errors raised synchronously by Master methods
(master.ts lines 366-398). -/
inductive MasterError
  | invalidWorkerId
  | cannotRemoveActive
  | notInStatusSet
  | notStartedUp
deriving DecidableEq, Repr

/-- Options accepted by the `Master` constructor (`MasterOptions` in
master.ts); `concurrency = options.concurrency || 2`. -/
structure MasterOptions where
  concurrency : Option Nat := none
deriving DecidableEq, Repr

/-- State owned by one `Master` (master.ts lines 139-163) together with its
`Pool` registry (pool.ts): the id-indexed worker store (as an
insertion-ordered list with a fresh-id counter for `uniqueId`), the
per-status id sets, the PENDING and RUNNING queues, the `running` counter,
the concurrency ceiling and the `isUp` flag. -/
structure MasterState where
  nextId : Nat
  workers : List Worker
  statusSets : STATUS → List Nat
  pendingQueue : List Nat
  runningQueue : List Nat
  running : Int
  concurrency : Nat
  isUp : Bool

/-- `new Master(options)` (master.ts lines 139-164). -/
def MasterState.init (options : MasterOptions) : MasterState :=
  { nextId := 0
    workers := []
    statusSets := fun _ => []
    pendingQueue := []
    runningQueue := []
    running := 0
    concurrency := jsOrNat options.concurrency 2
    isUp := false }

/-- `Pool.get` / `Master.get`: the worker stored under the given id
(`this.cache[id] || null`, pool.ts lines 59-65). -/
def MasterState.find (m : MasterState) (id : Nat) : Option Worker :=
  m.workers.find? (fun w => w.id == id)

/-- Status of the worker stored under the given id. -/
def MasterState.statusOf (m : MasterState) (id : Nat) : Option STATUS :=
  (m.find id).map Worker.status

/-- Replace the worker stored under the given id (JS object key update;
object keys are unique, so the first match is the stored worker). -/
def updWorkers : List Worker → Nat → Worker → List Worker
  | [], _, _ => []
  | v :: rest, id, w' => if v.id = id then w' :: rest else v :: updWorkers rest id w'

/-- JS `Set.add`: append when absent (insertion-ordered sets). -/
def setAdd (l : List Nat) (id : Nat) : List Nat :=
  if id ∈ l then l else l ++ [id]

/-- JS `Set.delete`. -/
def setDelete (l : List Nat) (id : Nat) : List Nat :=
  l.filter (fun x => x != id)

/-- The `running`-counter strategy of `Master.updateStatus` (master.ts lines
228-245), dispatched on the worker's new status: RUNNING increments;
COMPLETE, ERROR, TIMEOUT and PAUSED decrement; CANCELLED decrements unless
the previous status was PENDING or INITIALED; INITIALED and PENDING leave
the counter alone. -/
def runningDelta : Option STATUS → STATUS → Int
  | _, STATUS.INITIALED => 0
  | _, STATUS.PENDING => 0
  | _, STATUS.RUNNING => 1
  | _, STATUS.COMPLETE => -1
  | _, STATUS.ERROR => -1
  | _, STATUS.TIMEOUT => -1
  | prev, STATUS.CANCELLED =>
      if prev = some STATUS.PENDING ∨ prev = some STATUS.INITIALED then 0 else -1
  | _, STATUS.PAUSED => -1

/-- `Master.updateStatus` (master.ts lines 204-249), run synchronously on
every `update:status` event: remove the worker from the structure indexed by
its previous status — for PENDING/RUNNING this is `Queue.dequeue()`, which
removes the queue HEAD whatever it is — add it to the structure for its new
status, then apply the counter strategy. -/
def MasterState.updateStatusFor (m : MasterState) (w : Worker) : MasterState :=
  let m1 :=
    match w.prevStatus with
    | none => m
    | some p =>
      if p = STATUS.PENDING then { m with pendingQueue := m.pendingQueue.tail }
      else if p = STATUS.RUNNING then { m with runningQueue := m.runningQueue.tail }
      else { m with statusSets := fun s =>
        if s = p then setDelete (m.statusSets p) w.id else m.statusSets s }
  let m2 :=
    if w.status = STATUS.PENDING then
      { m1 with pendingQueue := m1.pendingQueue ++ [w.id] }
    else if w.status = STATUS.RUNNING then
      { m1 with runningQueue := m1.runningQueue ++ [w.id] }
    else
      { m1 with statusSets := fun s =>
        if s = w.status then setAdd (m1.statusSets w.status) w.id else m1.statusSets s }
  { m2 with running := m2.running + runningDelta w.prevStatus w.status }

/-- One atomic status transition of a registered worker: `setStatus` together
with the synchronous `update:status` handler (`Master.updateStatus`).  The
source runs the two as one unit, with no interleaving point between them. -/
def MasterState.applyTransition (m : MasterState) (id : Nat) (s : STATUS) : MasterState :=
  match m.find id with
  | none => m
  | some w =>
    let w' := w.setStatus s
    let m' := { m with workers := updWorkers m.workers id w' }
    m'.updateStatusFor w'

/-- After an ERROR (or TIMEOUT) transition the worker's `retry` handler runs
in the same synchronous emission: when the corresponding retryOn* flag is set
and the budget is positive, the budget is decremented and `pending()` is
scheduled after `retryAfterMs` (modelled by a later `retryPending` event). -/
def MasterState.retryAdjust (m : MasterState) (id : Nat) (useTimeoutFlag : Bool) : MasterState :=
  match m.find id with
  | none => m
  | some w =>
    if (if useTimeoutFlag then w.retryOnTimeout else w.retryOnError) then
      { m with workers := updWorkers m.workers id w.onRetry.1 }
    else m

/-- `Worker.pending()` requested through the scheduler (`Master.execute`
calls `worker.pending()`, and a scheduled retry calls it directly): a no-op
when the worker is missing or already PENDING/RUNNING, otherwise the atomic
transition to PENDING. -/
def MasterState.execPending (m : MasterState) (id : Nat) : MasterState :=
  match m.statusOf id with
  | none => m
  | some st =>
    if st = STATUS.PENDING ∨ st = STATUS.RUNNING then m
    else m.applyTransition id STATUS.PENDING

/-- Quiescent-point events of the scheduler system: the Master control API
(`startup`, `shutdown`, `create`, `execute` and the bulk variants, `cancel`,
and the stubbed `pause`/`resume`, which perform no status transition in the
source), the admission loop's start of the worker at the head of the PENDING
queue (`poll`/`next` peek the head, `worker.run()` refuses only RUNNING
workers, and the job's `run` acknowledgment produces the RUNNING
transition), the job-originated terminal reports (`complete`/`error`/
`timeout`, which a contract-abiding job emits only while RUNNING, and
`cancel`, acknowledged only for a PENDING or RUNNING worker), and the firing
of a scheduled retry. -/
inductive MEvent
  | startup
  | shutdown
  | create (options : WorkerOptions)
  | execute (id : Nat)
  | retryPending (id : Nat)
  | start (id : Nat)
  | complete (id : Nat)
  | error (id : Nat)
  | timeout (id : Nat)
  | cancel (id : Nat)
  | pause (id : Nat)
  | resume (id : Nat)
deriving DecidableEq, Repr

/-- Effect of one quiescent-point event on the scheduler state, with the
guards the source imposes; events whose guard fails leave the state
unchanged. -/
def MasterState.exec (m : MasterState) (e : MEvent) : MasterState :=
  match e with
  | MEvent.startup => { m with isUp := true }
  | MEvent.shutdown => { m with isUp := false }
  | MEvent.create options =>
      { m with workers := m.workers ++ [mkWorker m.nextId options]
               nextId := m.nextId + 1 }
  | MEvent.execute id => if m.isUp then m.execPending id else m
  | MEvent.retryPending id => m.execPending id
  | MEvent.start id =>
      if m.isUp ∧ m.running < (m.concurrency : Int)
          ∧ m.pendingQueue.head? = some id
          ∧ (m.statusOf id).isSome ∧ m.statusOf id ≠ some STATUS.RUNNING then
        m.applyTransition id STATUS.RUNNING
      else m
  | MEvent.complete id =>
      if m.statusOf id = some STATUS.RUNNING then
        m.applyTransition id STATUS.COMPLETE
      else m
  | MEvent.error id =>
      if m.statusOf id = some STATUS.RUNNING then
        (m.applyTransition id STATUS.ERROR).retryAdjust id false
      else m
  | MEvent.timeout id =>
      if m.statusOf id = some STATUS.RUNNING then
        (m.applyTransition id STATUS.TIMEOUT).retryAdjust id true
      else m
  | MEvent.cancel id =>
      if m.statusOf id = some STATUS.PENDING ∨ m.statusOf id = some STATUS.RUNNING then
        m.applyTransition id STATUS.CANCELLED
      else m
  | MEvent.pause _ => m
  | MEvent.resume _ => m

/-- Run a trace of quiescent-point events from the freshly constructed
scheduler. -/
def runTrace (options : MasterOptions) (t : List MEvent) : MasterState :=
  t.foldl MasterState.exec (MasterState.init options)

/-- Number of registered workers whose status is RUNNING. -/
def countRunning (l : List Worker) : Nat :=
  (l.filter (fun w => w.status == STATUS.RUNNING)).length

theorem Worker.setStatus_id (w : Worker) (s : STATUS) : (w.setStatus s).id = w.id := by
  unfold Worker.setStatus Worker.setProgress
  dsimp only
  split <;> [skip; rfl]
  split <;> rfl

theorem Worker.onRetry_id (w : Worker) : w.onRetry.1.id = w.id := by
  unfold Worker.onRetry
  split <;> rfl

theorem Worker.onRetry_status (w : Worker) : w.onRetry.1.status = w.status := by
  unfold Worker.onRetry
  split <;> rfl

theorem countRunning_cons (w : Worker) (l : List Worker) :
    countRunning (w :: l)
      = (if w.status = STATUS.RUNNING then 1 else 0) + countRunning l := by
  by_cases h : w.status = STATUS.RUNNING <;>
    simp [countRunning, List.filter_cons, h, Nat.add_comm]

theorem countRunning_append (l1 l2 : List Worker) :
    countRunning (l1 ++ l2) = countRunning l1 + countRunning l2 := by
  simp [countRunning, List.filter_append]

theorem MasterState.find_id (m : MasterState) (id : Nat) (w : Worker)
    (h : m.find id = some w) : w.id = id := by
  have := List.find?_some h
  simpa using this

theorem find?_updWorkers_self (l : List Worker) (id : Nat) (w w' : Worker)
    (h : l.find? (fun v => v.id == id) = some w) (hw' : w'.id = id) :
    (updWorkers l id w').find? (fun v => v.id == id) = some w' := by
  induction l with
  | nil => simp [List.find?] at h
  | cons v rest ih =>
    by_cases hv : v.id = id
    · rw [updWorkers]
      simp only [if_pos hv]
      rw [List.find?_cons_of_pos _ (by simp [hw'])]
    · rw [List.find?_cons_of_neg _ (by simp [hv])] at h
      rw [updWorkers]
      simp only [if_neg hv]
      rw [List.find?_cons_of_neg _ (by simp [hv])]
      exact ih h

theorem find?_updWorkers_ne (l : List Worker) (id id' : Nat) (w' : Worker)
    (hw' : w'.id = id) (hne : id' ≠ id) :
    (updWorkers l id w').find? (fun v => v.id == id')
      = l.find? (fun v => v.id == id') := by
  induction l with
  | nil => rfl
  | cons v rest ih =>
    by_cases hv : v.id = id
    · rw [updWorkers]
      simp only [if_pos hv]
      rw [List.find?_cons_of_neg _ (by simp [hw']; omega),
        List.find?_cons_of_neg _ (by simp [hv]; omega)]
    · rw [updWorkers]
      simp only [if_neg hv]
      by_cases hv' : v.id = id'
      · rw [List.find?_cons_of_pos _ (by simp [hv']),
          List.find?_cons_of_pos _ (by simp [hv'])]
      · rw [List.find?_cons_of_neg _ (by simp [hv']),
          List.find?_cons_of_neg _ (by simp [hv'])]
        exact ih

theorem countRunning_updWorkers (l : List Worker) (id : Nat) (w w' : Worker)
    (h : l.find? (fun v => v.id == id) = some w) :
    countRunning (updWorkers l id w') + (if w.status = STATUS.RUNNING then 1 else 0)
      = countRunning l + (if w'.status = STATUS.RUNNING then 1 else 0) := by
  induction l with
  | nil => simp [List.find?] at h
  | cons v rest ih =>
    by_cases hv : v.id = id
    · rw [List.find?_cons_of_pos _ (by simp [hv])] at h
      injection h with h
      subst h
      rw [updWorkers]
      simp only [if_pos hv]
      rw [countRunning_cons, countRunning_cons]
      omega
    · rw [List.find?_cons_of_neg _ (by simp [hv])] at h
      rw [updWorkers]
      simp only [if_neg hv]
      rw [countRunning_cons, countRunning_cons]
      have := ih h
      omega

theorem MasterState.updateStatusFor_running (m : MasterState) (w : Worker) :
    (m.updateStatusFor w).running = m.running + runningDelta w.prevStatus w.status := by
  unfold MasterState.updateStatusFor
  rcases hp : w.prevStatus with _ | p <;> simp only [hp] <;>
    split_ifs <;> rfl

theorem MasterState.updateStatusFor_workers (m : MasterState) (w : Worker) :
    (m.updateStatusFor w).workers = m.workers := by
  unfold MasterState.updateStatusFor
  rcases hp : w.prevStatus with _ | p <;> simp only [hp] <;>
    split_ifs <;> rfl

theorem MasterState.updateStatusFor_concurrency (m : MasterState) (w : Worker) :
    (m.updateStatusFor w).concurrency = m.concurrency := by
  unfold MasterState.updateStatusFor
  rcases hp : w.prevStatus with _ | p <;> simp only [hp] <;>
    split_ifs <;> rfl

theorem MasterState.updateStatusFor_isUp (m : MasterState) (w : Worker) :
    (m.updateStatusFor w).isUp = m.isUp := by
  unfold MasterState.updateStatusFor
  rcases hp : w.prevStatus with _ | p <;> simp only [hp] <;>
    split_ifs <;> rfl

theorem MasterState.updateStatusFor_nextId (m : MasterState) (w : Worker) :
    (m.updateStatusFor w).nextId = m.nextId := by
  unfold MasterState.updateStatusFor
  rcases hp : w.prevStatus with _ | p <;> simp only [hp] <;>
    split_ifs <;> rfl

theorem MasterState.applyTransition_running (m : MasterState) (id : Nat) (s : STATUS)
    (w : Worker) (h : m.find id = some w) :
    (m.applyTransition id s).running = m.running + runningDelta (some w.status) s := by
  unfold MasterState.applyTransition
  rw [h]
  dsimp only
  rw [MasterState.updateStatusFor_running]
  rw [Worker.setStatus_prevStatus, Worker.setStatus_status]

theorem MasterState.applyTransition_countRunning (m : MasterState) (id : Nat) (s : STATUS)
    (w : Worker) (h : m.find id = some w) :
    countRunning (m.applyTransition id s).workers
        + (if w.status = STATUS.RUNNING then 1 else 0)
      = countRunning m.workers + (if s = STATUS.RUNNING then 1 else 0) := by
  unfold MasterState.applyTransition
  rw [h]
  dsimp only
  rw [MasterState.updateStatusFor_workers]
  have hc := countRunning_updWorkers m.workers id w (w.setStatus s) h
  rw [Worker.setStatus_status] at hc
  exact hc

theorem MasterState.applyTransition_concurrency (m : MasterState) (id : Nat) (s : STATUS) :
    (m.applyTransition id s).concurrency = m.concurrency := by
  unfold MasterState.applyTransition
  rcases h : m.find id with _ | w
  · rfl
  · dsimp only
    rw [MasterState.updateStatusFor_concurrency]

theorem MasterState.applyTransition_isUp (m : MasterState) (id : Nat) (s : STATUS) :
    (m.applyTransition id s).isUp = m.isUp := by
  unfold MasterState.applyTransition
  rcases h : m.find id with _ | w
  · rfl
  · dsimp only
    rw [MasterState.updateStatusFor_isUp]

theorem MasterState.applyTransition_nextId (m : MasterState) (id : Nat) (s : STATUS) :
    (m.applyTransition id s).nextId = m.nextId := by
  unfold MasterState.applyTransition
  rcases h : m.find id with _ | w
  · rfl
  · dsimp only
    rw [MasterState.updateStatusFor_nextId]

theorem MasterState.find_applyTransition_self (m : MasterState) (id : Nat) (s : STATUS)
    (w : Worker) (h : m.find id = some w) :
    (m.applyTransition id s).find id = some (w.setStatus s) := by
  unfold MasterState.applyTransition
  rw [h]
  dsimp only
  unfold MasterState.find
  rw [MasterState.updateStatusFor_workers]
  exact find?_updWorkers_self m.workers id w (w.setStatus s) h
    (by rw [Worker.setStatus_id]; exact m.find_id id w h)

theorem MasterState.find_applyTransition_ne (m : MasterState) (id id' : Nat) (s : STATUS)
    (hne : id' ≠ id) :
    (m.applyTransition id s).find id' = m.find id' := by
  unfold MasterState.applyTransition
  rcases h : m.find id with _ | w
  · rfl
  · dsimp only
    unfold MasterState.find
    rw [MasterState.updateStatusFor_workers]
    exact find?_updWorkers_ne m.workers id id' (w.setStatus s)
      (by rw [Worker.setStatus_id]; exact m.find_id id w h) hne

theorem MasterState.statusOf_applyTransition_self (m : MasterState) (id : Nat) (s : STATUS)
    (w : Worker) (h : m.find id = some w) :
    (m.applyTransition id s).statusOf id = some s := by
  unfold MasterState.statusOf
  rw [MasterState.find_applyTransition_self m id s w h]
  simp [Worker.setStatus_status]

theorem MasterState.statusOf_applyTransition_ne (m : MasterState) (id id' : Nat) (s : STATUS)
    (hne : id' ≠ id) :
    (m.applyTransition id s).statusOf id' = m.statusOf id' := by
  unfold MasterState.statusOf
  rw [MasterState.find_applyTransition_ne m id id' s hne]

theorem MasterState.retryAdjust_running (m : MasterState) (id : Nat) (b : Bool) :
    (m.retryAdjust id b).running = m.running := by
  unfold MasterState.retryAdjust
  rcases h : m.find id with _ | w
  · rfl
  · dsimp only
    split_ifs <;> rfl

theorem MasterState.retryAdjust_concurrency (m : MasterState) (id : Nat) (b : Bool) :
    (m.retryAdjust id b).concurrency = m.concurrency := by
  unfold MasterState.retryAdjust
  rcases h : m.find id with _ | w
  · rfl
  · dsimp only
    split_ifs <;> rfl

theorem MasterState.retryAdjust_isUp (m : MasterState) (id : Nat) (b : Bool) :
    (m.retryAdjust id b).isUp = m.isUp := by
  unfold MasterState.retryAdjust
  rcases h : m.find id with _ | w
  · rfl
  · dsimp only
    split_ifs <;> rfl

theorem MasterState.retryAdjust_countRunning (m : MasterState) (id : Nat) (b : Bool) :
    countRunning (m.retryAdjust id b).workers = countRunning m.workers := by
  unfold MasterState.retryAdjust
  rcases h : m.find id with _ | w
  · rfl
  · dsimp only
    split <;> split
    all_goals
      first
      | rfl
      | (have hc := countRunning_updWorkers m.workers id w w.onRetry.1 h
         rw [Worker.onRetry_status] at hc
         dsimp only
         omega)

theorem MasterState.statusOf_retryAdjust (m : MasterState) (id : Nat) (b : Bool) (id' : Nat) :
    (m.retryAdjust id b).statusOf id' = m.statusOf id' := by
  unfold MasterState.retryAdjust
  rcases h : m.find id with _ | w
  · rfl
  · dsimp only
    split <;> split
    all_goals
      first
      | rfl
      | (unfold MasterState.statusOf MasterState.find
         dsimp only
         by_cases hne : id' = id
         · subst hne
           rw [find?_updWorkers_self m.workers id' w w.onRetry.1 h
             (by rw [Worker.onRetry_id]; exact m.find_id id' w h)]
           rw [show m.workers.find? (fun v => v.id == id') = some w from h]
           simp [Worker.onRetry_status]
         · rw [find?_updWorkers_ne m.workers id id' w.onRetry.1
             (by rw [Worker.onRetry_id]; exact m.find_id id w h) hne])

theorem MasterState.statusOf_eq (m : MasterState) (id : Nat) (st : STATUS)
    (h : m.statusOf id = some st) : ∃ w, m.find id = some w ∧ w.status = st := by
  unfold MasterState.statusOf at h
  rcases hf : m.find id with _ | w
  · rw [hf] at h
    simp at h
  · rw [hf] at h
    simp at h
    exact ⟨w, rfl, h⟩

/-- The counter invariant of C1: `running` equals the number of RUNNING
workers in the registry and stays below the concurrency ceiling. -/
def CounterInv (m : MasterState) : Prop :=
  m.running = (countRunning m.workers : Int) ∧ m.running ≤ (m.concurrency : Int)

theorem counterInv_applyTransition (m : MasterState) (id : Nat) (s : STATUS) (w : Worker)
    (h : m.find id = some w) (hInv : CounterInv m)
    (hdelta : runningDelta (some w.status) s
      = (if s = STATUS.RUNNING then 1 else 0) - (if w.status = STATUS.RUNNING then 1 else 0))
    (hbound : m.running + runningDelta (some w.status) s ≤ (m.concurrency : Int)) :
    CounterInv (m.applyTransition id s) := by
  obtain ⟨h1, h2⟩ := hInv
  constructor
  · rw [MasterState.applyTransition_running m id s w h, h1, hdelta]
    have hc := MasterState.applyTransition_countRunning m id s w h
    split_ifs at hc ⊢ <;> omega
  · rw [MasterState.applyTransition_running m id s w h,
      MasterState.applyTransition_concurrency m id s]
    exact hbound

theorem counterInv_retryAdjust (m : MasterState) (id : Nat) (b : Bool)
    (h : CounterInv m) : CounterInv (m.retryAdjust id b) := by
  obtain ⟨h1, h2⟩ := h
  constructor
  · rw [MasterState.retryAdjust_running, MasterState.retryAdjust_countRunning]
    exact h1
  · rw [MasterState.retryAdjust_running, MasterState.retryAdjust_concurrency]
    exact h2

theorem counterInv_execPending (m : MasterState) (id : Nat) (h : CounterInv m) :
    CounterInv (m.execPending id) := by
  unfold MasterState.execPending
  rcases hst : m.statusOf id with _ | st
  · exact h
  · dsimp only
    split_ifs with hpr
    · exact h
    · obtain ⟨w, hw, hws⟩ := MasterState.statusOf_eq m id st hst
      have hne : st ≠ STATUS.RUNNING := fun hh => hpr (Or.inr hh)
      apply counterInv_applyTransition m id STATUS.PENDING w hw h
      · rw [hws]
        simp [runningDelta, hne]
      · rw [hws]
        simp [runningDelta]
        exact h.2

theorem exec_counterInv (m : MasterState) (e : MEvent) (h : CounterInv m) :
    CounterInv (m.exec e) := by
  obtain ⟨h1, h2⟩ := h
  cases e with
  | startup => exact ⟨h1, h2⟩
  | shutdown => exact ⟨h1, h2⟩
  | pause id => exact ⟨h1, h2⟩
  | resume id => exact ⟨h1, h2⟩
  | create options =>
    constructor
    · show m.running = ((countRunning (m.workers ++ [mkWorker m.nextId options]) : Nat) : Int)
      rw [countRunning_append]
      have hz : countRunning [mkWorker m.nextId options] = 0 := rfl
      rw [hz]
      simpa using h1
    · exact h2
  | execute id =>
    show CounterInv (if m.isUp then m.execPending id else m)
    split_ifs with hup
    · exact counterInv_execPending m id ⟨h1, h2⟩
    · exact ⟨h1, h2⟩
  | retryPending id => exact counterInv_execPending m id ⟨h1, h2⟩
  | start id =>
    show CounterInv (if _ then m.applyTransition id STATUS.RUNNING else m)
    split_ifs with hg
    · obtain ⟨hup, hlt, hhead, hsome, hnr⟩ := hg
      rcases hst : m.statusOf id with _ | st
      · rw [hst] at hsome
        simp at hsome
      · obtain ⟨w, hw, hws⟩ := MasterState.statusOf_eq m id st hst
        have hne : st ≠ STATUS.RUNNING := by
          rw [hst] at hnr
          simpa using hnr
        apply counterInv_applyTransition m id STATUS.RUNNING w hw ⟨h1, h2⟩
        · rw [hws]
          simp [runningDelta, hne]
        · rw [hws]
          simp [runningDelta]
          omega
    · exact ⟨h1, h2⟩
  | complete id =>
    show CounterInv (if _ then m.applyTransition id STATUS.COMPLETE else m)
    split_ifs with hg
    · obtain ⟨w, hw, hws⟩ := MasterState.statusOf_eq m id STATUS.RUNNING hg
      apply counterInv_applyTransition m id STATUS.COMPLETE w hw ⟨h1, h2⟩
      · rw [hws]
        simp [runningDelta]
      · rw [hws]
        simp [runningDelta]
        have hnn : (0 : Int) ≤ (countRunning m.workers : Int) := by positivity
        omega
    · exact ⟨h1, h2⟩
  | error id =>
    show CounterInv (if _ then (m.applyTransition id STATUS.ERROR).retryAdjust id false else m)
    split_ifs with hg
    · apply counterInv_retryAdjust
      obtain ⟨w, hw, hws⟩ := MasterState.statusOf_eq m id STATUS.RUNNING hg
      apply counterInv_applyTransition m id STATUS.ERROR w hw ⟨h1, h2⟩
      · rw [hws]
        simp [runningDelta]
      · rw [hws]
        simp [runningDelta]
        omega
    · exact ⟨h1, h2⟩
  | timeout id =>
    show CounterInv (if _ then (m.applyTransition id STATUS.TIMEOUT).retryAdjust id true else m)
    split_ifs with hg
    · apply counterInv_retryAdjust
      obtain ⟨w, hw, hws⟩ := MasterState.statusOf_eq m id STATUS.RUNNING hg
      apply counterInv_applyTransition m id STATUS.TIMEOUT w hw ⟨h1, h2⟩
      · rw [hws]
        simp [runningDelta]
      · rw [hws]
        simp [runningDelta]
        omega
    · exact ⟨h1, h2⟩
  | cancel id =>
    show CounterInv (if _ then m.applyTransition id STATUS.CANCELLED else m)
    split_ifs with hg
    · rcases hg with hg | hg
      · obtain ⟨w, hw, hws⟩ := MasterState.statusOf_eq m id STATUS.PENDING hg
        apply counterInv_applyTransition m id STATUS.CANCELLED w hw ⟨h1, h2⟩
        · rw [hws]
          simp [runningDelta]
        · rw [hws]
          simp [runningDelta]
          exact h2
      · obtain ⟨w, hw, hws⟩ := MasterState.statusOf_eq m id STATUS.RUNNING hg
        apply counterInv_applyTransition m id STATUS.CANCELLED w hw ⟨h1, h2⟩
        · rw [hws]
          simp [runningDelta]
        · rw [hws]
          simp [runningDelta]
          omega
    · exact ⟨h1, h2⟩

/-- C1.  In every state reachable by a trace of quiescent-point events —
startup/shutdown, create, execute (and hence the bulk variants, which issue
the same per-worker operations), cancel, the stubbed pause/resume, admission
and the job-originated status events — the `running` counter equals the
number of RUNNING workers in the registry and never exceeds the concurrency
ceiling. -/
theorem scheduler_counter_invariant (options : MasterOptions) (t : List MEvent) :
    (runTrace options t).running = (countRunning (runTrace options t).workers : Int)
    ∧ (runTrace options t).running ≤ ((runTrace options t).concurrency : Int) := by
  have hgen : ∀ (t : List MEvent) (m : MasterState), CounterInv m →
      CounterInv (t.foldl MasterState.exec m) := by
    intro t
    induction t with
    | nil => intro m hm; exact hm
    | cons e es ih =>
      intro m hm
      exact ih _ (exec_counterInv m e hm)
  have hinit : CounterInv (MasterState.init options) := by
    constructor
    · simp [MasterState.init, countRunning]
    · simp [MasterState.init]
  exact hgen t _ hinit

theorem some_eq_trans_ne {α : Type _} {x : Option α} {a b : α}
    (h1 : x = some a) (h2 : x = some b) (h : b ≠ a) : False := by
  rw [h1] at h2
  injection h2 with h2
  exact h h2.symm

/-- The status-to-counter mapping exactly as C2 states it: entering RUNNING
increments; leaving RUNNING to COMPLETE, ERROR, TIMEOUT or PAUSED
decrements; entering CANCELLED decrements only when the previous status was
RUNNING; no other transition changes the counter. -/
def claimDelta (prev next : STATUS) : Int :=
  if next = STATUS.RUNNING then 1
  else if prev = STATUS.RUNNING ∧ (next = STATUS.COMPLETE ∨ next = STATUS.ERROR
      ∨ next = STATUS.TIMEOUT ∨ next = STATUS.PAUSED) then -1
  else if next = STATUS.CANCELLED then (if prev = STATUS.RUNNING then -1 else 0)
  else 0

theorem execPending_running_mapping (m : MasterState) (id' id : Nat) (st s : STATUS)
    (hst : m.statusOf id = some st) (hs : (m.execPending id').statusOf id = some s)
    (hne : s ≠ st) :
    (m.execPending id').running = m.running + claimDelta st s := by
  unfold MasterState.execPending at hs ⊢
  rcases hst2 : m.statusOf id' with _ | st2
  · simp only [hst2] at hs
    exact (some_eq_trans_ne hst hs hne).elim
  · simp only [hst2] at hs ⊢
    split_ifs at hs ⊢ with hpr
    · exact (some_eq_trans_ne hst hs hne).elim
    · by_cases hid : id = id'
      · subst hid
        obtain ⟨w, hw, hws⟩ := MasterState.statusOf_eq m id st hst
        have hsp : s = STATUS.PENDING := by
          rw [MasterState.statusOf_applyTransition_self m id STATUS.PENDING w hw] at hs
          injection hs with h'
          exact h'.symm
        rw [MasterState.applyTransition_running m id STATUS.PENDING w hw, hws, hsp]
        have h2 : claimDelta st STATUS.PENDING = 0 := by simp [claimDelta]
        have h1 : runningDelta (some st) STATUS.PENDING = 0 := rfl
        rw [h1, h2]
      · rw [MasterState.statusOf_applyTransition_ne m id' id STATUS.PENDING hid] at hs
        exact (some_eq_trans_ne hst hs hne).elim

/-- C2.  Whenever a quiescent-point event changes the status of a worker
from `st` to `s`, the `running` counter changes exactly by the claim's
mapping `claimDelta st s` — applied atomically with the status-index update
(the model performs `setStatus`, the index update and the counter strategy
as a single step, as the synchronous `update:status` emission does in the
source). -/
theorem counter_update_mapping (m : MasterState) (e : MEvent) (id : Nat) (st s : STATUS)
    (hst : m.statusOf id = some st) (hs : (m.exec e).statusOf id = some s)
    (hne : s ≠ st) :
    (m.exec e).running = m.running + claimDelta st s := by
  cases e with
  | startup =>
    have hs' : m.statusOf id = some s := hs
    exact (some_eq_trans_ne hst hs' hne).elim
  | shutdown =>
    have hs' : m.statusOf id = some s := hs
    exact (some_eq_trans_ne hst hs' hne).elim
  | pause id' =>
    have hs' : m.statusOf id = some s := hs
    exact (some_eq_trans_ne hst hs' hne).elim
  | resume id' =>
    have hs' : m.statusOf id = some s := hs
    exact (some_eq_trans_ne hst hs' hne).elim
  | create options =>
    obtain ⟨w, hw, hws⟩ := MasterState.statusOf_eq m id st hst
    have hw' : (m.exec (MEvent.create options)).find id = some w := by
      show ((m.workers ++ [mkWorker m.nextId options]).find? (fun v => v.id == id)) = some w
      rw [List.find?_append]
      unfold MasterState.find at hw
      rw [hw]
      rfl
    have hs' : s = st := by
      unfold MasterState.statusOf at hs
      rw [hw'] at hs
      simp [hws] at hs
      exact hs.symm
    exact (hne hs').elim
  | execute id' =>
    simp only [MasterState.exec] at hs ⊢
    split_ifs at hs ⊢ with hup
    · exact execPending_running_mapping m id' id st s hst hs hne
    · exact (some_eq_trans_ne hst hs hne).elim
  | retryPending id' =>
    simp only [MasterState.exec] at hs ⊢
    exact execPending_running_mapping m id' id st s hst hs hne
  | start id' =>
    simp only [MasterState.exec] at hs ⊢
    split_ifs at hs ⊢ with hg
    · by_cases hid : id = id'
      · subst hid
        obtain ⟨w, hw, hws⟩ := MasterState.statusOf_eq m id st hst
        have hsp : s = STATUS.RUNNING := by
          rw [MasterState.statusOf_applyTransition_self m id STATUS.RUNNING w hw] at hs
          injection hs with h'
          exact h'.symm
        rw [MasterState.applyTransition_running m id STATUS.RUNNING w hw, hws, hsp]
        have h2 : claimDelta st STATUS.RUNNING = 1 := by simp [claimDelta]
        have h1 : runningDelta (some st) STATUS.RUNNING = 1 := rfl
        rw [h1, h2]
      · rw [MasterState.statusOf_applyTransition_ne m id' id STATUS.RUNNING hid] at hs
        exact (some_eq_trans_ne hst hs hne).elim
    · exact (some_eq_trans_ne hst hs hne).elim
  | complete id' =>
    simp only [MasterState.exec] at hs ⊢
    split_ifs at hs ⊢ with hg
    · by_cases hid : id = id'
      · subst hid
        obtain ⟨w, hw, hws⟩ := MasterState.statusOf_eq m id STATUS.RUNNING hg
        have hstR : st = STATUS.RUNNING := by
          exact Option.some.inj (hst.symm.trans hg)
        have hsp : s = STATUS.COMPLETE := by
          rw [MasterState.statusOf_applyTransition_self m id STATUS.COMPLETE w hw] at hs
          injection hs with h'
          exact h'.symm
        rw [MasterState.applyTransition_running m id STATUS.COMPLETE w hw, hws, hsp, hstR]
        have hd : runningDelta (some STATUS.RUNNING) STATUS.COMPLETE
            = claimDelta STATUS.RUNNING STATUS.COMPLETE := by decide
        rw [hd]
      · rw [MasterState.statusOf_applyTransition_ne m id' id STATUS.COMPLETE hid] at hs
        exact (some_eq_trans_ne hst hs hne).elim
    · exact (some_eq_trans_ne hst hs hne).elim
  | error id' =>
    simp only [MasterState.exec] at hs ⊢
    split_ifs at hs ⊢ with hg
    · rw [MasterState.retryAdjust_running]
      rw [MasterState.statusOf_retryAdjust] at hs
      by_cases hid : id = id'
      · subst hid
        obtain ⟨w, hw, hws⟩ := MasterState.statusOf_eq m id STATUS.RUNNING hg
        have hstR : st = STATUS.RUNNING := by
          exact Option.some.inj (hst.symm.trans hg)
        have hsp : s = STATUS.ERROR := by
          rw [MasterState.statusOf_applyTransition_self m id STATUS.ERROR w hw] at hs
          injection hs with h'
          exact h'.symm
        rw [MasterState.applyTransition_running m id STATUS.ERROR w hw, hws, hsp, hstR]
        have hd : runningDelta (some STATUS.RUNNING) STATUS.ERROR
            = claimDelta STATUS.RUNNING STATUS.ERROR := by decide
        rw [hd]
      · rw [MasterState.statusOf_applyTransition_ne m id' id STATUS.ERROR hid] at hs
        exact (some_eq_trans_ne hst hs hne).elim
    · exact (some_eq_trans_ne hst hs hne).elim
  | timeout id' =>
    simp only [MasterState.exec] at hs ⊢
    split_ifs at hs ⊢ with hg
    · rw [MasterState.retryAdjust_running]
      rw [MasterState.statusOf_retryAdjust] at hs
      by_cases hid : id = id'
      · subst hid
        obtain ⟨w, hw, hws⟩ := MasterState.statusOf_eq m id STATUS.RUNNING hg
        have hstR : st = STATUS.RUNNING := by
          exact Option.some.inj (hst.symm.trans hg)
        have hsp : s = STATUS.TIMEOUT := by
          rw [MasterState.statusOf_applyTransition_self m id STATUS.TIMEOUT w hw] at hs
          injection hs with h'
          exact h'.symm
        rw [MasterState.applyTransition_running m id STATUS.TIMEOUT w hw, hws, hsp, hstR]
        have hd : runningDelta (some STATUS.RUNNING) STATUS.TIMEOUT
            = claimDelta STATUS.RUNNING STATUS.TIMEOUT := by decide
        rw [hd]
      · rw [MasterState.statusOf_applyTransition_ne m id' id STATUS.TIMEOUT hid] at hs
        exact (some_eq_trans_ne hst hs hne).elim
    · exact (some_eq_trans_ne hst hs hne).elim
  | cancel id' =>
    simp only [MasterState.exec] at hs ⊢
    split_ifs at hs ⊢ with hg
    · by_cases hid : id = id'
      · subst hid
        obtain ⟨w, hw, hws⟩ := MasterState.statusOf_eq m id st hst
        have hsp : s = STATUS.CANCELLED := by
          rw [MasterState.statusOf_applyTransition_self m id STATUS.CANCELLED w hw] at hs
          injection hs with h'
          exact h'.symm
        rcases hg with hg | hg
        · have hstP : st = STATUS.PENDING := by
            exact Option.some.inj (hst.symm.trans hg)
          rw [MasterState.applyTransition_running m id STATUS.CANCELLED w hw, hws, hsp, hstP]
          have hd : runningDelta (some STATUS.PENDING) STATUS.CANCELLED
              = claimDelta STATUS.PENDING STATUS.CANCELLED := by decide
          rw [hd]
        · have hstR : st = STATUS.RUNNING := by
            exact Option.some.inj (hst.symm.trans hg)
          rw [MasterState.applyTransition_running m id STATUS.CANCELLED w hw, hws, hsp, hstR]
          have hd : runningDelta (some STATUS.RUNNING) STATUS.CANCELLED
              = claimDelta STATUS.RUNNING STATUS.CANCELLED := by decide
          rw [hd]
      · rw [MasterState.statusOf_applyTransition_ne m id' id STATUS.CANCELLED hid] at hs
        exact (some_eq_trans_ne hst hs hne).elim
    · exact (some_eq_trans_ne hst hs hne).elim

/-- Witness for `counter_update_mapping`: after startup, create and execute,
admitting worker 0 moves it PENDING → RUNNING and bumps the counter by the
claimed mapping value. -/
theorem counter_update_mapping_witness :
    ((runTrace {} [MEvent.startup, MEvent.create {}, MEvent.execute 0]).exec (MEvent.start 0)).running
      = (runTrace {} [MEvent.startup, MEvent.create {}, MEvent.execute 0]).running
        + claimDelta STATUS.PENDING STATUS.RUNNING := by
  exact counter_update_mapping (runTrace {} [MEvent.startup, MEvent.create {}, MEvent.execute 0])
    (MEvent.start 0) 0 STATUS.PENDING STATUS.RUNNING (by decide) (by decide) (by decide)

/-- Whether an `Except` result is a success. -/
def exceptOk {ε α : Type _} : Except ε α → Bool
  | Except.ok _ => true
  | Except.error _ => false

/-- `Master.remove(id)` (master.ts lines 366-388) over `Pool.remove`
(pool.ts lines 67-73): fail with an invalid-id error when the worker is
missing, with an invalid-state error when it is PENDING or RUNNING, and with
an invariant-violation error when it is absent from the status set matching
its current status; only otherwise delete it from that status set and from
the registry.  All checks precede every mutation, so a failure leaves the
state untouched. -/
def MasterState.removeOp (m : MasterState) (id : Nat) : Except MasterError MasterState :=
  match m.find id with
  | none => Except.error MasterError.invalidWorkerId
  | some w =>
    if w.status = STATUS.PENDING ∨ w.status = STATUS.RUNNING then
      Except.error MasterError.cannotRemoveActive
    else if w.id ∈ m.statusSets w.status then
      Except.ok { m with
        statusSets := fun s =>
          if s = w.status then setDelete (m.statusSets w.status) w.id
          else m.statusSets s
        workers := m.workers.filter (fun v => v.id != id) }
    else Except.error MasterError.notInStatusSet

/-- C8.  `remove(id)` fails with the invalid-id error exactly when no worker
holds the id; fails with the invalid-state error when the worker is PENDING
or RUNNING; fails with the invariant-violation error when the worker is
missing from the status set for its current status; and only otherwise
succeeds, deleting the worker from that status set and from the registry
while leaving every other status set, the queues and the counter untouched.
Failures are raised before any mutation, so on failure the registry and the
status sets are unchanged. -/
theorem remove_contract (m : MasterState) (id : Nat) :
    (m.find id = none → m.removeOp id = Except.error MasterError.invalidWorkerId)
    ∧ (∀ w, m.find id = some w → (w.status = STATUS.PENDING ∨ w.status = STATUS.RUNNING) →
        m.removeOp id = Except.error MasterError.cannotRemoveActive)
    ∧ (∀ w, m.find id = some w → w.status ≠ STATUS.PENDING → w.status ≠ STATUS.RUNNING →
        id ∉ m.statusSets w.status → m.removeOp id = Except.error MasterError.notInStatusSet)
    ∧ (∀ w, m.find id = some w → w.status ≠ STATUS.PENDING → w.status ≠ STATUS.RUNNING →
        id ∈ m.statusSets w.status → exceptOk (m.removeOp id) = true)
    ∧ (∀ w m', m.find id = some w → m.removeOp id = Except.ok m' →
        m'.find id = none
        ∧ m'.workers = m.workers.filter (fun v => v.id != id)
        ∧ m'.statusSets w.status = setDelete (m.statusSets w.status) id
        ∧ (∀ s, s ≠ w.status → m'.statusSets s = m.statusSets s)
        ∧ m'.running = m.running
        ∧ m'.pendingQueue = m.pendingQueue
        ∧ m'.runningQueue = m.runningQueue
        ∧ m'.concurrency = m.concurrency) := by
  refine ⟨?_, ?_, ?_, ?_, ?_⟩
  · intro h
    unfold MasterState.removeOp
    rw [h]
  · intro w hw hpr
    unfold MasterState.removeOp
    rw [hw]
    simp [hpr]
  · intro w hw h1 h2 hmem
    unfold MasterState.removeOp
    rw [hw]
    have hid : w.id = id := m.find_id id w hw
    simp [h1, h2, hid, hmem]
  · intro w hw h1 h2 hmem
    unfold MasterState.removeOp
    rw [hw]
    have hid : w.id = id := m.find_id id w hw
    simp [h1, h2, hid, hmem, exceptOk]
  · intro w m' hw hok
    have hid : w.id = id := m.find_id id w hw
    unfold MasterState.removeOp at hok
    rw [hw] at hok
    dsimp only at hok
    split_ifs at hok with hpr hmem
    injection hok with hok
    subst hok
    refine ⟨?_, rfl, ?_, ?_, rfl, rfl, rfl, rfl⟩
    · unfold MasterState.find
      dsimp only
      apply List.find?_eq_none.mpr
      intro v hv
      have := (List.mem_filter.mp hv).2
      simpa using this
    · dsimp only
      rw [if_pos rfl, hid]
    · intro s hs
      dsimp only
      rw [if_neg hs]

/-- Witness for `remove_contract`: a freshly created INITIALED worker is not
in any status set, so removal raises the invariant-violation error; removing
an unknown id raises the invalid-id error; removing a PENDING worker raises
the invalid-state error; a CANCELLED worker (which entered its status set)
is removed successfully. -/
theorem remove_contract_witness :
    (runTrace {} [MEvent.create {}]).removeOp 0 = Except.error MasterError.notInStatusSet
    ∧ (runTrace {} [MEvent.create {}]).removeOp 7 = Except.error MasterError.invalidWorkerId
    ∧ (runTrace {} [MEvent.startup, MEvent.create {}, MEvent.execute 0]).removeOp 0
        = Except.error MasterError.cannotRemoveActive
    ∧ exceptOk ((runTrace {} [MEvent.startup, MEvent.create {}, MEvent.execute 0,
        MEvent.cancel 0]).removeOp 0) = true := by
  refine ⟨?_, ?_, ?_, ?_⟩
  · exact (remove_contract (runTrace {} [MEvent.create {}]) 0).2.2.1
      (mkWorker 0 {}) (by decide) (by decide) (by decide) (by decide)
  · exact (remove_contract (runTrace {} [MEvent.create {}]) 7).1 (by decide)
  · exact (remove_contract (runTrace {} [MEvent.startup, MEvent.create {}, MEvent.execute 0]) 0).2.1
      ((mkWorker 0 {}).setStatus STATUS.PENDING) (by decide) (by decide)
  · exact (remove_contract (runTrace {} [MEvent.startup, MEvent.create {}, MEvent.execute 0,
      MEvent.cancel 0]) 0).2.2.2.1
      (((mkWorker 0 {}).setStatus STATUS.PENDING).setStatus STATUS.CANCELLED)
      (by decide) (by decide) (by decide) (by decide)

/-- Outcome of `Master.execute(id)` for a registered worker (master.ts lines
390-398): it throws when the scheduler has not been started up; otherwise it
requests `worker.pending()`, which does not throw. -/
def executeOutcome (m : MasterState) (_id : Nat) : Except MasterError Unit :=
  if m.isUp then Except.ok () else Except.error MasterError.notStartedUp

/-- The per-worker outcomes of `executeAll` (master.ts lines 421-423):
`this.workers.map(worker => this.execute(worker.id))` starts one `execute`
promise per registered worker before any aggregation, so every worker is
attempted regardless of the other outcomes. -/
def executeAllOutcomes (m : MasterState) : List (Except MasterError Unit) :=
  m.workers.map (fun w => executeOutcome m w.id)

/-- `Promise.all` over a list of already-started promises with synchronous
outcomes: it rejects with the first rejection, discarding every other
outcome, and resolves with the list of values only when none rejects. -/
def promiseAll : List (Except MasterError Unit) → Except MasterError (List Unit)
  | [] => Except.ok []
  | Except.error e :: _ => Except.error e
  | Except.ok a :: xs =>
      match promiseAll xs with
      | Except.error e => Except.error e
      | Except.ok rest => Except.ok (a :: rest)

/-- `Master.executeAll` (master.ts lines 421-423):
`Promise.all(this.workers.map(worker => this.execute(worker.id)))`.
`cancelAll` and `pauseAll` (lines 428-437) aggregate with the same
`Promise.all`-over-`map` shape. -/
def executeAllAgg (m : MasterState) : Except MasterError (List Unit) :=
  promiseAll (executeAllOutcomes m)

/-- C9 counterexample.  The claim says the aggregate result of the bulk
operations reports every individual outcome instead of failing fast on the
first error.  Two schedulers that were not started up, one holding one
worker and one holding two, have different per-worker outcome lists, yet
`executeAll` returns the same single first error for both — the aggregate
discards the other outcomes, so it cannot report them. -/
theorem bulk_aggregate_counterexample :
    executeAllAgg (runTrace {} [MEvent.create {}])
      = executeAllAgg (runTrace {} [MEvent.create {}, MEvent.create {}])
    ∧ executeAllOutcomes (runTrace {} [MEvent.create {}])
      ≠ executeAllOutcomes (runTrace {} [MEvent.create {}, MEvent.create {}])
    ∧ executeAllAgg (runTrace {} [MEvent.create {}, MEvent.create {}])
      = Except.error MasterError.notStartedUp
    ∧ executeAllOutcomes (runTrace {} [MEvent.create {}, MEvent.create {}])
      = [Except.error MasterError.notStartedUp, Except.error MasterError.notStartedUp] := by
  refine ⟨rfl, ?_, rfl, rfl⟩
  intro h
  exact absurd (congrArg List.length h) (by decide)

theorem promiseAll_all_ok (l : List Unit) :
    promiseAll (l.map (fun _ => Except.ok ())) = Except.ok (l.map (fun _ => ())) := by
  induction l with
  | nil => rfl
  | cons x xs ih =>
    simp only [List.map_cons, promiseAll, ih]

theorem promiseAll_first_error (pre post : List (Except MasterError Unit)) (e : MasterError)
    (h : ∀ x ∈ pre, x = Except.ok ()) :
    promiseAll (pre ++ Except.error e :: post) = Except.error e := by
  induction pre with
  | nil => rfl
  | cons x xs ih =>
    have hx : x = Except.ok () := h x (List.mem_cons_self x xs)
    subst hx
    have ih' : promiseAll (xs.append (Except.error e :: post)) = Except.error e :=
      ih (fun y hy => h y (List.mem_cons_of_mem _ hy))
    simp only [List.cons_append, promiseAll, ih']

/-- C9 amended.  `executeAll` (and `cancelAll`/`pauseAll`, which share the
same shape) maps the single-id operation over every worker in the registry,
so every worker's operation is initiated regardless of other failures; but
the aggregation is `Promise.all`, which resolves with all values when every
operation succeeds and otherwise rejects with the first failure, reporting
no other outcome. -/
theorem bulk_aggregate_amended (m : MasterState) :
    (executeAllOutcomes m).length = m.workers.length
    ∧ (m.isUp = true → executeAllAgg m = Except.ok (m.workers.map (fun _ => ())))
    ∧ (m.isUp = false → m.workers ≠ [] → executeAllAgg m = Except.error MasterError.notStartedUp)
    ∧ (∀ (pre post : List (Except MasterError Unit)) (e : MasterError),
        (∀ x ∈ pre, x = Except.ok ()) →
        promiseAll (pre ++ Except.error e :: post) = Except.error e) := by
  refine ⟨?_, ?_, ?_, promiseAll_first_error⟩
  · simp [executeAllOutcomes]
  · intro hup
    unfold executeAllAgg executeAllOutcomes executeOutcome
    rw [hup]
    simp only [if_true]
    have h1 : m.workers.map (fun w => (Except.ok () : Except MasterError Unit))
        = (m.workers.map (fun _ => ())).map (fun _ => Except.ok ()) := by
      simp
    rw [h1, promiseAll_all_ok]
    simp
  · intro hdown hne
    unfold executeAllAgg executeAllOutcomes executeOutcome
    rw [hdown]
    rcases hw : m.workers with _ | ⟨w, ws⟩
    · exact (hne hw).elim
    · rfl

/-- Witness for `bulk_aggregate_amended`: a started-up scheduler with one
worker executes all successfully; a stopped one fails fast with the startup
error; an error following a success aggregates to that first error. -/
theorem bulk_aggregate_amended_witness :
    executeAllAgg (runTrace {} [MEvent.startup, MEvent.create {}]) = Except.ok [()]
    ∧ executeAllAgg (runTrace {} [MEvent.create {}]) = Except.error MasterError.notStartedUp
    ∧ promiseAll [Except.ok (), Except.error MasterError.notStartedUp]
        = Except.error MasterError.notStartedUp := by
  refine ⟨?_, ?_, ?_⟩
  · exact (bulk_aggregate_amended (runTrace {} [MEvent.startup, MEvent.create {}])).2.1 rfl
  · exact (bulk_aggregate_amended (runTrace {} [MEvent.create {}])).2.2.1 rfl (by decide)
  · exact (bulk_aggregate_amended (runTrace {} [MEvent.create {}])).2.2.2
      [Except.ok ()] [] MasterError.notStartedUp (by intro x hx; simpa using hx)

theorem MasterState.applyTransition_pendingQueue (m : MasterState) (id : Nat) (s : STATUS)
    (w : Worker) (h : m.find id = some w) :
    (m.applyTransition id s).pendingQueue
      = (if w.status = STATUS.PENDING then m.pendingQueue.tail else m.pendingQueue)
        ++ (if s = STATUS.PENDING then [id] else []) := by
  unfold MasterState.applyTransition
  rw [h]
  dsimp only
  unfold MasterState.updateStatusFor
  rw [Worker.setStatus_prevStatus, Worker.setStatus_status, Worker.setStatus_id,
    m.find_id id w h]
  dsimp only
  by_cases h1 : w.status = STATUS.PENDING <;>
    by_cases h2 : s = STATUS.PENDING <;>
      simp [h1, h2] <;> split_ifs <;> simp

theorem MasterState.retryAdjust_pendingQueue (m : MasterState) (id : Nat) (b : Bool) :
    (m.retryAdjust id b).pendingQueue = m.pendingQueue := by
  unfold MasterState.retryAdjust
  rcases h : m.find id with _ | w
  · rfl
  · dsimp only
    split <;> split <;> rfl

theorem MasterState.statusOf_create_of_some (m : MasterState) (o : WorkerOptions)
    (id : Nat) (st : STATUS) (h : m.statusOf id = some st) :
    (m.exec (MEvent.create o)).statusOf id = some st := by
  obtain ⟨w, hw, hws⟩ := MasterState.statusOf_eq m id st h
  unfold MasterState.find at hw
  show (((m.workers ++ [mkWorker m.nextId o]).find? (fun v => v.id == id)).map Worker.status)
    = some st
  rw [List.find?_append, hw]
  simp [hws]

theorem MasterState.statusOf_create_cases (m : MasterState) (o : WorkerOptions)
    (id : Nat) (st : STATUS)
    (h : (m.exec (MEvent.create o)).statusOf id = some st) :
    m.statusOf id = some st ∨ st = STATUS.INITIALED := by
  have h' : (((m.workers ++ [mkWorker m.nextId o]).find? (fun v => v.id == id)).map Worker.status)
      = some st := h
  rw [List.find?_append] at h'
  rcases hf : m.workers.find? (fun v => v.id == id) with _ | w
  · rw [hf] at h'
    simp only [Option.none_or] at h'
    by_cases hm : ((mkWorker m.nextId o).id == id) = true
    · right
      simp only [List.find?] at h'
      rw [hm] at h'
      simp only [Option.map_some', Option.some.injEq] at h'
      rw [← h']
      rfl
    · simp only [List.find?] at h'
      rw [Bool.eq_false_iff.mpr hm] at h'
      simp at h'
  · rw [hf] at h'
    have h'' : Option.map Worker.status (some w) = some st := h'
    left
    unfold MasterState.statusOf MasterState.find
    rw [hf]
    exact h''

theorem MasterState.statusOf_of_find (m : MasterState) (id : Nat) (w : Worker)
    (h : m.find id = some w) : m.statusOf id = some w.status := by
  unfold MasterState.statusOf
  rw [h]
  rfl

/-- An event is safe for a state when it does not cancel a worker that is
currently PENDING (cancelling a non-head PENDING worker corrupts the queue,
because `Queue.dequeue()` removes the head). -/
def safeEvent (m : MasterState) (e : MEvent) : Prop :=
  ∀ c, e = MEvent.cancel c → m.statusOf c ≠ some STATUS.PENDING

/-- Sanity of the PENDING queue: no duplicates, every queued id belongs to a
PENDING worker, and every PENDING worker is queued. -/
def QueueInv (m : MasterState) : Prop :=
  m.pendingQueue.Nodup
  ∧ (∀ id ∈ m.pendingQueue, m.statusOf id = some STATUS.PENDING)
  ∧ (∀ id, m.statusOf id = some STATUS.PENDING → id ∈ m.pendingQueue)

theorem queueInv_retryAdjust (m : MasterState) (id : Nat) (b : Bool)
    (hq : QueueInv m) : QueueInv (m.retryAdjust id b) := by
  obtain ⟨hn, hmem, hcompl⟩ := hq
  refine ⟨?_, ?_, ?_⟩
  · rw [MasterState.retryAdjust_pendingQueue]
    exact hn
  · intro x hx
    rw [MasterState.retryAdjust_pendingQueue] at hx
    rw [MasterState.statusOf_retryAdjust]
    exact hmem x hx
  · intro x hxp
    rw [MasterState.statusOf_retryAdjust] at hxp
    rw [MasterState.retryAdjust_pendingQueue]
    exact hcompl x hxp

theorem queueInv_applyTransition_fromRunning (m : MasterState) (id : Nat) (s : STATUS)
    (w : Worker) (h : m.find id = some w) (hws : w.status = STATUS.RUNNING)
    (hs : s ≠ STATUS.PENDING) (hq : QueueInv m) :
    QueueInv (m.applyTransition id s) := by
  obtain ⟨hn, hmem, hcompl⟩ := hq
  have hqeq : (m.applyTransition id s).pendingQueue = m.pendingQueue := by
    rw [MasterState.applyTransition_pendingQueue m id s w h, hws]
    simp [hs]
  have hidR : m.statusOf id = some STATUS.RUNNING := by
    rw [MasterState.statusOf_of_find m id w h, hws]
  refine ⟨?_, ?_, ?_⟩
  · rw [hqeq]
    exact hn
  · intro x hx
    rw [hqeq] at hx
    have hxp := hmem x hx
    have hxne : x ≠ id := by
      intro hh
      subst hh
      rw [hidR] at hxp
      exact STATUS.noConfusion (Option.some.inj hxp)
    rw [MasterState.statusOf_applyTransition_ne m id x s hxne]
    exact hxp
  · intro x hxp
    rw [hqeq]
    by_cases hxe : x = id
    · subst hxe
      rw [MasterState.statusOf_applyTransition_self m x s w h] at hxp
      exact absurd (Option.some.inj hxp) hs
    · rw [MasterState.statusOf_applyTransition_ne m id x s hxe] at hxp
      exact hcompl x hxp

theorem queueInv_execPending (m : MasterState) (id : Nat) (hq : QueueInv m) :
    QueueInv (m.execPending id) := by
  unfold MasterState.execPending
  rcases hst : m.statusOf id with _ | st
  · exact hq
  · dsimp only
    split_ifs with hpr
    · exact hq
    · obtain ⟨w, hw, hws⟩ := MasterState.statusOf_eq m id st hst
      obtain ⟨hn, hmem, hcompl⟩ := hq
      have hnotP : w.status ≠ STATUS.PENDING := by
        rw [hws]
        exact fun hh => hpr (Or.inl hh)
      have hqeq : (m.applyTransition id STATUS.PENDING).pendingQueue
          = m.pendingQueue ++ [id] := by
        rw [MasterState.applyTransition_pendingQueue m id STATUS.PENDING w hw]
        simp [hnotP]
      have hidnot : id ∉ m.pendingQueue := by
        intro hh
        have h2 := hmem id hh
        rw [hst] at h2
        exact hpr (Or.inl (Option.some.inj h2))
      refine ⟨?_, ?_, ?_⟩
      · rw [hqeq]
        refine List.Nodup.append hn (List.nodup_singleton id) ?_
        intro x hx hx'
        rw [List.mem_singleton.mp hx'] at hx
        exact hidnot hx
      · intro x hx
        rw [hqeq] at hx
        rcases List.mem_append.mp hx with hx | hx
        · have hxp := hmem x hx
          have hxne : x ≠ id := fun hh => hidnot (hh ▸ hx)
          rw [MasterState.statusOf_applyTransition_ne m id x STATUS.PENDING hxne]
          exact hxp
        · rw [List.mem_singleton.mp hx]
          exact MasterState.statusOf_applyTransition_self m id STATUS.PENDING w hw
      · intro x hxp
        rw [hqeq]
        by_cases hxe : x = id
        · subst hxe
          exact List.mem_append.mpr (Or.inr (List.mem_singleton.mpr rfl))
        · rw [MasterState.statusOf_applyTransition_ne m id x STATUS.PENDING hxe] at hxp
          exact List.mem_append.mpr (Or.inl (hcompl x hxp))

theorem queueInv_startHead (m : MasterState) (id : Nat) (hq : QueueInv m)
    (hhead : m.pendingQueue.head? = some id) :
    QueueInv (m.applyTransition id STATUS.RUNNING) := by
  obtain ⟨hn, hmem, hcompl⟩ := hq
  rcases hqq : m.pendingQueue with _ | ⟨h0, rest⟩
  · rw [hqq] at hhead
    cases hhead
  · rw [hqq] at hhead
    simp only [List.head?_cons, Option.some.injEq] at hhead
    subst hhead
    have hidmem : h0 ∈ m.pendingQueue := by
      rw [hqq]
      exact List.mem_cons_self _ _
    have hidP : m.statusOf h0 = some STATUS.PENDING := hmem h0 hidmem
    obtain ⟨w, hw, hws⟩ := MasterState.statusOf_eq m h0 STATUS.PENDING hidP
    have hqeq : (m.applyTransition h0 STATUS.RUNNING).pendingQueue = rest := by
      rw [MasterState.applyTransition_pendingQueue m h0 STATUS.RUNNING w hw, hws]
      simp [hqq]
    have hnodup' : (h0 :: rest).Nodup := by
      rw [← hqq]
      exact hn
    have hidrest : h0 ∉ rest := (List.nodup_cons.mp hnodup').1
    refine ⟨?_, ?_, ?_⟩
    · rw [hqeq]
      exact (List.nodup_cons.mp hnodup').2
    · intro x hx
      rw [hqeq] at hx
      have hxq : x ∈ m.pendingQueue := by
        rw [hqq]
        exact List.mem_cons_of_mem _ hx
      have hxne : x ≠ h0 := fun hh => hidrest (hh ▸ hx)
      rw [MasterState.statusOf_applyTransition_ne m h0 x STATUS.RUNNING hxne]
      exact hmem x hxq
    · intro x hxp
      rw [hqeq]
      by_cases hxe : x = h0
      · subst hxe
        rw [MasterState.statusOf_applyTransition_self m x STATUS.RUNNING w hw] at hxp
        exact STATUS.noConfusion (Option.some.inj hxp)
      · rw [MasterState.statusOf_applyTransition_ne m h0 x STATUS.RUNNING hxe] at hxp
        have hxq := hcompl x hxp
        rw [hqq] at hxq
        rcases List.mem_cons.mp hxq with hh | hh
        · exact (hxe hh).elim
        · exact hh

theorem queueInv_exec (m : MasterState) (e : MEvent) (hsafe : safeEvent m e)
    (hq : QueueInv m) : QueueInv (m.exec e) := by
  obtain ⟨hn, hmem, hcompl⟩ := hq
  cases e with
  | startup => exact ⟨hn, hmem, hcompl⟩
  | shutdown => exact ⟨hn, hmem, hcompl⟩
  | pause id => exact ⟨hn, hmem, hcompl⟩
  | resume id => exact ⟨hn, hmem, hcompl⟩
  | create o =>
    refine ⟨hn, ?_, ?_⟩
    · intro x hx
      exact MasterState.statusOf_create_of_some m o x _ (hmem x hx)
    · intro x hxp
      rcases MasterState.statusOf_create_cases m o x _ hxp with hh | hh
      · exact hcompl x hh
      · cases hh
  | execute id =>
    show QueueInv (if m.isUp then m.execPending id else m)
    split_ifs with hup
    · exact queueInv_execPending m id ⟨hn, hmem, hcompl⟩
    · exact ⟨hn, hmem, hcompl⟩
  | retryPending id => exact queueInv_execPending m id ⟨hn, hmem, hcompl⟩
  | start id =>
    show QueueInv (if _ then m.applyTransition id STATUS.RUNNING else m)
    split_ifs with hg
    · exact queueInv_startHead m id ⟨hn, hmem, hcompl⟩ hg.2.2.1
    · exact ⟨hn, hmem, hcompl⟩
  | complete id =>
    show QueueInv (if _ then m.applyTransition id STATUS.COMPLETE else m)
    split_ifs with hg
    · obtain ⟨w, hw, hws⟩ := MasterState.statusOf_eq m id STATUS.RUNNING hg
      exact queueInv_applyTransition_fromRunning m id STATUS.COMPLETE w hw hws
        (by decide) ⟨hn, hmem, hcompl⟩
    · exact ⟨hn, hmem, hcompl⟩
  | error id =>
    show QueueInv (if _ then (m.applyTransition id STATUS.ERROR).retryAdjust id false else m)
    split_ifs with hg
    · obtain ⟨w, hw, hws⟩ := MasterState.statusOf_eq m id STATUS.RUNNING hg
      exact queueInv_retryAdjust _ id false
        (queueInv_applyTransition_fromRunning m id STATUS.ERROR w hw hws
          (by decide) ⟨hn, hmem, hcompl⟩)
    · exact ⟨hn, hmem, hcompl⟩
  | timeout id =>
    show QueueInv (if _ then (m.applyTransition id STATUS.TIMEOUT).retryAdjust id true else m)
    split_ifs with hg
    · obtain ⟨w, hw, hws⟩ := MasterState.statusOf_eq m id STATUS.RUNNING hg
      exact queueInv_retryAdjust _ id true
        (queueInv_applyTransition_fromRunning m id STATUS.TIMEOUT w hw hws
          (by decide) ⟨hn, hmem, hcompl⟩)
    · exact ⟨hn, hmem, hcompl⟩
  | cancel id =>
    show QueueInv (if _ then m.applyTransition id STATUS.CANCELLED else m)
    split_ifs with hg
    · have hns : m.statusOf id ≠ some STATUS.PENDING := hsafe id rfl
      rcases hg with hg | hg
      · exact (hns hg).elim
      · obtain ⟨w, hw, hws⟩ := MasterState.statusOf_eq m id STATUS.RUNNING hg
        exact queueInv_applyTransition_fromRunning m id STATUS.CANCELLED w hw hws
          (by decide) ⟨hn, hmem, hcompl⟩
    · exact ⟨hn, hmem, hcompl⟩

/-- Least index below the bound at which the predicate holds. -/
def firstIdx (p : Nat → Bool) : Nat → Option Nat
  | 0 => none
  | n+1 =>
    match firstIdx p n with
    | some k => some k
    | none => if p n then some n else none

theorem firstIdx_none (p : Nat → Bool) :
    ∀ n, firstIdx p n = none → ∀ i, i < n → p i = false := by
  intro n
  induction n with
  | zero => exact fun _ i hi => absurd hi (Nat.not_lt_zero i)
  | succ n ih =>
    intro h i hi
    rw [firstIdx] at h
    rcases hm : firstIdx p n with _ | k
    · rw [hm] at h
      dsimp only at h
      split_ifs at h with hp
      by_cases hin : i < n
      · exact ih hm i hin
      · have hieq : i = n := by omega
        subst hieq
        exact Bool.eq_false_iff.mpr hp
    · rw [hm] at h
      cases h

theorem firstIdx_spec (p : Nat → Bool) :
    ∀ n k, firstIdx p n = some k →
      p k = true ∧ k < n ∧ ∀ i, i < k → p i = false := by
  intro n
  induction n with
  | zero => intro k h; cases h
  | succ n ih =>
    intro k h
    rw [firstIdx] at h
    rcases hm : firstIdx p n with _ | k'
    · rw [hm] at h
      dsimp only at h
      split_ifs at h with hp
      cases h
      exact ⟨hp, Nat.lt_succ_self _, firstIdx_none p n hm⟩
    · rw [hm] at h
      cases h
      obtain ⟨ha, hb, hc⟩ := ih _ hm
      exact ⟨ha, Nat.lt_succ_of_lt hb, hc⟩

theorem firstIdx_le_of_true (p : Nat → Bool) (n i : Nat) (hi : i < n) (hp : p i = true) :
    ∃ k, firstIdx p n = some k ∧ k ≤ i := by
  rcases hk : firstIdx p n with _ | k
  · have := firstIdx_none p n hk i hi
    rw [hp] at this
    cases this
  · refine ⟨k, rfl, ?_⟩
    by_contra hlt
    push_neg at hlt
    have := (firstIdx_spec p n k hk).2.2 i hlt
    rw [hp] at this
    cases this

/-- First step index (number of consumed events) at which the worker holds
the given status, scanning the whole trace. -/
def firstReach (options : MasterOptions) (t : List MEvent) (id : Nat) (s : STATUS) : Option Nat :=
  firstIdx (fun k => decide ((runTrace options (t.take k)).statusOf id = some s)) (t.length + 1)

/-- No `cancel` event of the trace targets a worker that is PENDING at that
moment (cancelling a PENDING worker other than the queue head corrupts the
queue, since `Queue.dequeue()` always removes the head). -/
def noPendingCancel (options : MasterOptions) (t : List MEvent) : Bool :=
  (List.range t.length).all (fun k =>
    match t.get? k with
    | some (MEvent.cancel c) =>
        decide ((runTrace options (t.take k)).statusOf c ≠ some STATUS.PENDING)
    | _ => true)

theorem runTrace_take_succ (options : MasterOptions) (t : List MEvent) (k : Nat) (e : MEvent)
    (hk : t.get? k = some e) :
    runTrace options (t.take (k+1)) = (runTrace options (t.take k)).exec e := by
  unfold runTrace
  have hk' : t[k]? = some e := by
    rw [← List.get?_eq_getElem?]
    exact hk
  rw [List.take_succ, hk']
  rw [List.foldl_append]
  rfl

theorem runTrace_take_stable (options : MasterOptions) (t : List MEvent) (k : Nat)
    (hk : t.get? k = none) :
    runTrace options (t.take (k+1)) = runTrace options (t.take k) := by
  have hlen : t.length ≤ k := List.get?_eq_none.mp hk
  rw [List.take_of_length_le hlen, List.take_of_length_le (Nat.le_succ_of_le hlen)]

theorem noPendingCancel_safe (options : MasterOptions) (t : List MEvent)
    (h : noPendingCancel options t = true) (k : Nat) (e : MEvent) (hk : t.get? k = some e) :
    safeEvent (runTrace options (t.take k)) e := by
  intro c hc
  subst hc
  have hklen : k < t.length := by
    by_contra hcon
    push_neg at hcon
    rw [List.get?_eq_none.mpr hcon] at hk
    cases hk
  have hall := List.all_eq_true.mp h k (List.mem_range.mpr hklen)
  rw [hk] at hall
  exact of_decide_eq_true hall

theorem queueInv_runTrace (options : MasterOptions) (t : List MEvent)
    (hnc : noPendingCancel options t = true) :
    ∀ k, QueueInv (runTrace options (t.take k)) := by
  intro k
  induction k with
  | zero =>
    refine ⟨List.nodup_nil, ?_, ?_⟩
    · intro x hx
      exact absurd hx (List.not_mem_nil x)
    · intro x hxp
      have hnone : (runTrace options (t.take 0)).statusOf x = none := rfl
      rw [hnone] at hxp
      cases hxp
  | succ k ih =>
    rcases hk : t.get? k with _ | e
    · rw [runTrace_take_stable options t k hk]
      exact ih
    · rw [runTrace_take_succ options t k e hk]
      exact queueInv_exec _ e (noPendingCancel_safe options t hnc k e hk) ih

theorem execPending_statusOf_pending (m : MasterState) (id x : Nat)
    (hx : m.statusOf x = some STATUS.PENDING) :
    (m.execPending id).statusOf x = some STATUS.PENDING := by
  unfold MasterState.execPending
  rcases hst : m.statusOf id with _ | st
  · exact hx
  · dsimp only
    split_ifs with hpr
    · exact hx
    · have hne : x ≠ id := by
        intro hh
        subst hh
        rw [hst] at hx
        exact hpr (Or.inl (Option.some.inj hx))
      rw [MasterState.statusOf_applyTransition_ne m id x STATUS.PENDING hne]
      exact hx

theorem pending_persists (m : MasterState) (e : MEvent) (x : Nat) (hsafe : safeEvent m e)
    (hx : m.statusOf x = some STATUS.PENDING) :
    (m.exec e).statusOf x = some STATUS.PENDING
    ∨ (m.exec e).statusOf x = some STATUS.RUNNING := by
  cases e with
  | startup => exact Or.inl hx
  | shutdown => exact Or.inl hx
  | pause id => exact Or.inl hx
  | resume id => exact Or.inl hx
  | create o => exact Or.inl (MasterState.statusOf_create_of_some m o x _ hx)
  | execute id =>
    left
    show (if m.isUp then m.execPending id else m).statusOf x = _
    split_ifs with hup
    · exact execPending_statusOf_pending m id x hx
    · exact hx
  | retryPending id => exact Or.inl (execPending_statusOf_pending m id x hx)
  | start id =>
    simp only [MasterState.exec]
    split_ifs with hg
    · by_cases hxe : x = id
      · subst hxe
        right
        obtain ⟨w, hw, _⟩ := MasterState.statusOf_eq m x _ hx
        exact MasterState.statusOf_applyTransition_self m x STATUS.RUNNING w hw
      · left
        rw [MasterState.statusOf_applyTransition_ne m id x STATUS.RUNNING hxe]
        exact hx
    · exact Or.inl hx
  | complete id =>
    left
    show (if _ then m.applyTransition id STATUS.COMPLETE else m).statusOf x = _
    split_ifs with hg
    · have hne : x ≠ id := by
        intro hh
        subst hh
        exact STATUS.noConfusion (Option.some.inj (hg.symm.trans hx))
      rw [MasterState.statusOf_applyTransition_ne m id x STATUS.COMPLETE hne]
      exact hx
    · exact hx
  | error id =>
    left
    show (if _ then (m.applyTransition id STATUS.ERROR).retryAdjust id false else m).statusOf x = _
    split_ifs with hg
    · have hne : x ≠ id := by
        intro hh
        subst hh
        exact STATUS.noConfusion (Option.some.inj (hg.symm.trans hx))
      rw [MasterState.statusOf_retryAdjust,
        MasterState.statusOf_applyTransition_ne m id x STATUS.ERROR hne]
      exact hx
    · exact hx
  | timeout id =>
    left
    show (if _ then (m.applyTransition id STATUS.TIMEOUT).retryAdjust id true else m).statusOf x = _
    split_ifs with hg
    · have hne : x ≠ id := by
        intro hh
        subst hh
        exact STATUS.noConfusion (Option.some.inj (hg.symm.trans hx))
      rw [MasterState.statusOf_retryAdjust,
        MasterState.statusOf_applyTransition_ne m id x STATUS.TIMEOUT hne]
      exact hx
    · exact hx
  | cancel id =>
    left
    show (if _ then m.applyTransition id STATUS.CANCELLED else m).statusOf x = _
    split_ifs with hg
    · have hne : x ≠ id := by
        intro hh
        subst hh
        exact (hsafe x rfl) hx
      rw [MasterState.statusOf_applyTransition_ne m id x STATUS.CANCELLED hne]
      exact hx
    · exact hx

theorem pending_until (options : MasterOptions) (t : List MEvent)
    (hnc : noPendingCancel options t = true) (x i : Nat)
    (hx : (runTrace options (t.take i)).statusOf x = some STATUS.PENDING) :
    ∀ k, i ≤ k →
      (∀ j, j ≤ k → (runTrace options (t.take j)).statusOf x ≠ some STATUS.RUNNING) →
      (runTrace options (t.take k)).statusOf x = some STATUS.PENDING := by
  intro k
  induction k with
  | zero =>
    intro hik _
    have hi0 : i = 0 := Nat.le_zero.mp hik
    subst hi0
    exact hx
  | succ k ih =>
    intro hik hnr
    by_cases hik' : i ≤ k
    · have hk := ih hik' (fun j hj => hnr j (Nat.le_succ_of_le hj))
      rcases hget : t.get? k with _ | e
      · rw [runTrace_take_stable options t k hget]
        exact hk
      · rw [runTrace_take_succ options t k e hget]
        rcases pending_persists _ e x (noPendingCancel_safe options t hnc k e hget) hk with hh | hh
        · exact hh
        · exfalso
          apply hnr (k+1) (Nat.le_refl _)
          rw [runTrace_take_succ options t k e hget]
          exact hh
    · have hieq : i = k + 1 := by omega
      subst hieq
      exact hx

theorem execPending_pendingQueue (m : MasterState) (id : Nat) :
    (m.execPending id).pendingQueue = m.pendingQueue
    ∨ (m.execPending id).pendingQueue = m.pendingQueue ++ [id] := by
  unfold MasterState.execPending
  rcases hst : m.statusOf id with _ | st
  · exact Or.inl rfl
  · dsimp only
    split_ifs with hpr
    · exact Or.inl rfl
    · obtain ⟨w, hw, hws⟩ := MasterState.statusOf_eq m id st hst
      right
      rw [MasterState.applyTransition_pendingQueue m id STATUS.PENDING w hw]
      have hnp : w.status ≠ STATUS.PENDING := by
        rw [hws]
        exact fun hh => hpr (Or.inl hh)
      simp [hnp]

theorem became_pending_execPending (m : MasterState) (id x : Nat)
    (hb : m.statusOf x ≠ some STATUS.PENDING)
    (ha : (m.execPending id).statusOf x = some STATUS.PENDING) :
    (m.execPending id).pendingQueue = m.pendingQueue ++ [x] := by
  unfold MasterState.execPending at ha ⊢
  rcases hst : m.statusOf id with _ | st
  · simp only [hst] at ha ⊢
    exact absurd ha hb
  · simp only [hst] at ha ⊢
    split_ifs at ha ⊢ with hpr
    · exact absurd ha hb
    · obtain ⟨w, hw, hws⟩ := MasterState.statusOf_eq m id st hst
      by_cases hxe : x = id
      · subst hxe
        rw [MasterState.applyTransition_pendingQueue m x STATUS.PENDING w hw]
        have hnp : w.status ≠ STATUS.PENDING := by
          rw [hws]
          exact fun hh => hpr (Or.inl hh)
        simp [hnp]
      · rw [MasterState.statusOf_applyTransition_ne m id x STATUS.PENDING hxe] at ha
        exact absurd ha hb

theorem became_pending (m : MasterState) (e : MEvent) (x : Nat)
    (hb : m.statusOf x ≠ some STATUS.PENDING)
    (ha : (m.exec e).statusOf x = some STATUS.PENDING) :
    (m.exec e).pendingQueue = m.pendingQueue ++ [x] := by
  cases e with
  | startup => exact absurd ha hb
  | shutdown => exact absurd ha hb
  | pause id => exact absurd ha hb
  | resume id => exact absurd ha hb
  | create o =>
    rcases MasterState.statusOf_create_cases m o x _ ha with hh | hh
    · exact absurd hh hb
    · cases hh
  | execute id =>
    simp only [MasterState.exec] at ha ⊢
    split_ifs at ha ⊢ with hup
    · exact became_pending_execPending m id x hb ha
    · exact absurd ha hb
  | retryPending id =>
    simp only [MasterState.exec] at ha ⊢
    exact became_pending_execPending m id x hb ha
  | start id =>
    simp only [MasterState.exec] at ha ⊢
    split_ifs at ha ⊢ with hg
    · by_cases hxe : x = id
      · subst hxe
        rcases hf : m.find x with _ | w
        · exfalso
          have hsm := hg.2.2.2.1
          unfold MasterState.statusOf at hsm
          rw [hf] at hsm
          simp at hsm
        · rw [MasterState.statusOf_applyTransition_self m x STATUS.RUNNING w hf] at ha
          exact STATUS.noConfusion (Option.some.inj ha)
      · rw [MasterState.statusOf_applyTransition_ne m id x STATUS.RUNNING hxe] at ha
        exact absurd ha hb
    · exact absurd ha hb
  | complete id =>
    simp only [MasterState.exec] at ha ⊢
    split_ifs at ha ⊢ with hg
    · by_cases hxe : x = id
      · subst hxe
        obtain ⟨w, hw, hws⟩ := MasterState.statusOf_eq m x _ hg
        rw [MasterState.statusOf_applyTransition_self m x STATUS.COMPLETE w hw] at ha
        exact STATUS.noConfusion (Option.some.inj ha)
      · rw [MasterState.statusOf_applyTransition_ne m id x STATUS.COMPLETE hxe] at ha
        exact absurd ha hb
    · exact absurd ha hb
  | error id =>
    simp only [MasterState.exec] at ha ⊢
    split_ifs at ha ⊢ with hg
    · rw [MasterState.statusOf_retryAdjust] at ha
      by_cases hxe : x = id
      · subst hxe
        obtain ⟨w, hw, hws⟩ := MasterState.statusOf_eq m x _ hg
        rw [MasterState.statusOf_applyTransition_self m x STATUS.ERROR w hw] at ha
        exact STATUS.noConfusion (Option.some.inj ha)
      · rw [MasterState.statusOf_applyTransition_ne m id x STATUS.ERROR hxe] at ha
        exact absurd ha hb
    · exact absurd ha hb
  | timeout id =>
    simp only [MasterState.exec] at ha ⊢
    split_ifs at ha ⊢ with hg
    · rw [MasterState.statusOf_retryAdjust] at ha
      by_cases hxe : x = id
      · subst hxe
        obtain ⟨w, hw, hws⟩ := MasterState.statusOf_eq m x _ hg
        rw [MasterState.statusOf_applyTransition_self m x STATUS.TIMEOUT w hw] at ha
        exact STATUS.noConfusion (Option.some.inj ha)
      · rw [MasterState.statusOf_applyTransition_ne m id x STATUS.TIMEOUT hxe] at ha
        exact absurd ha hb
    · exact absurd ha hb
  | cancel id =>
    simp only [MasterState.exec] at ha ⊢
    split_ifs at ha ⊢ with hg
    · by_cases hxe : x = id
      · subst hxe
        have hsm : (m.statusOf x).isSome := by
          rcases hg with hg | hg <;> rw [hg] <;> rfl
        rcases hf : m.find x with _ | w
        · exfalso
          unfold MasterState.statusOf at hsm
          rw [hf] at hsm
          simp at hsm
        · rw [MasterState.statusOf_applyTransition_self m x STATUS.CANCELLED w hf] at ha
          exact STATUS.noConfusion (Option.some.inj ha)
      · rw [MasterState.statusOf_applyTransition_ne m id x STATUS.CANCELLED hxe] at ha
        exact absurd ha hb
    · exact absurd ha hb

theorem execPending_no_running (m : MasterState) (id x : Nat)
    (hb : m.statusOf x ≠ some STATUS.RUNNING)
    (ha : (m.execPending id).statusOf x = some STATUS.RUNNING) : False := by
  unfold MasterState.execPending at ha
  rcases hst : m.statusOf id with _ | st
  · simp only [hst] at ha
    exact hb ha
  · simp only [hst] at ha
    split_ifs at ha with hpr
    · exact hb ha
    · by_cases hxe : x = id
      · subst hxe
        obtain ⟨w, hw, hws⟩ := MasterState.statusOf_eq m x st hst
        rw [MasterState.statusOf_applyTransition_self m x STATUS.PENDING w hw] at ha
        exact STATUS.noConfusion (Option.some.inj ha)
      · rw [MasterState.statusOf_applyTransition_ne m id x STATUS.PENDING hxe] at ha
        exact hb ha

theorem became_running (m : MasterState) (e : MEvent) (x : Nat)
    (hb : m.statusOf x ≠ some STATUS.RUNNING)
    (ha : (m.exec e).statusOf x = some STATUS.RUNNING) :
    m.pendingQueue.head? = some x := by
  cases e with
  | startup => exact absurd ha hb
  | shutdown => exact absurd ha hb
  | pause id => exact absurd ha hb
  | resume id => exact absurd ha hb
  | create o =>
    rcases MasterState.statusOf_create_cases m o x _ ha with hh | hh
    · exact absurd hh hb
    · cases hh
  | execute id =>
    simp only [MasterState.exec] at ha
    split_ifs at ha with hup
    · exact (execPending_no_running m id x hb ha).elim
    · exact absurd ha hb
  | retryPending id =>
    simp only [MasterState.exec] at ha
    exact (execPending_no_running m id x hb ha).elim
  | start id =>
    simp only [MasterState.exec] at ha
    split_ifs at ha with hg
    · by_cases hxe : x = id
      · subst hxe
        exact hg.2.2.1
      · rw [MasterState.statusOf_applyTransition_ne m id x STATUS.RUNNING hxe] at ha
        exact absurd ha hb
    · exact absurd ha hb
  | complete id =>
    simp only [MasterState.exec] at ha
    split_ifs at ha with hg
    · by_cases hxe : x = id
      · subst hxe
        obtain ⟨w, hw, hws⟩ := MasterState.statusOf_eq m x _ hg
        rw [MasterState.statusOf_applyTransition_self m x STATUS.COMPLETE w hw] at ha
        exact STATUS.noConfusion (Option.some.inj ha)
      · rw [MasterState.statusOf_applyTransition_ne m id x STATUS.COMPLETE hxe] at ha
        exact absurd ha hb
    · exact absurd ha hb
  | error id =>
    simp only [MasterState.exec] at ha
    split_ifs at ha with hg
    · rw [MasterState.statusOf_retryAdjust] at ha
      by_cases hxe : x = id
      · subst hxe
        obtain ⟨w, hw, hws⟩ := MasterState.statusOf_eq m x _ hg
        rw [MasterState.statusOf_applyTransition_self m x STATUS.ERROR w hw] at ha
        exact STATUS.noConfusion (Option.some.inj ha)
      · rw [MasterState.statusOf_applyTransition_ne m id x STATUS.ERROR hxe] at ha
        exact absurd ha hb
    · exact absurd ha hb
  | timeout id =>
    simp only [MasterState.exec] at ha
    split_ifs at ha with hg
    · rw [MasterState.statusOf_retryAdjust] at ha
      by_cases hxe : x = id
      · subst hxe
        obtain ⟨w, hw, hws⟩ := MasterState.statusOf_eq m x _ hg
        rw [MasterState.statusOf_applyTransition_self m x STATUS.TIMEOUT w hw] at ha
        exact STATUS.noConfusion (Option.some.inj ha)
      · rw [MasterState.statusOf_applyTransition_ne m id x STATUS.TIMEOUT hxe] at ha
        exact absurd ha hb
    · exact absurd ha hb
  | cancel id =>
    simp only [MasterState.exec] at ha
    split_ifs at ha with hg
    · by_cases hxe : x = id
      · subst hxe
        have hsm : (m.statusOf x).isSome := by
          rcases hg with hg | hg <;> rw [hg] <;> rfl
        rcases hf : m.find x with _ | w
        · exfalso
          unfold MasterState.statusOf at hsm
          rw [hf] at hsm
          simp at hsm
        · rw [MasterState.statusOf_applyTransition_self m x STATUS.CANCELLED w hf] at ha
          exact STATUS.noConfusion (Option.some.inj ha)
      · rw [MasterState.statusOf_applyTransition_ne m id x STATUS.CANCELLED hxe] at ha
        exact absurd ha hb
    · exact absurd ha hb

theorem sublist_ab_step (m : MasterState) (e : MEvent) (a b : Nat)
    (hq : QueueInv m) (hsafe : safeEvent m e)
    (hab : List.Sublist [a, b] m.pendingQueue) :
    (m.exec e).statusOf a = some STATUS.RUNNING
    ∨ List.Sublist [a, b] (m.exec e).pendingQueue := by
  obtain ⟨hn, hmem, hcompl⟩ := hq
  have haq : a ∈ m.pendingQueue := hab.subset (by simp)
  have haP := hmem a haq
  cases e with
  | startup => exact Or.inr hab
  | shutdown => exact Or.inr hab
  | pause id => exact Or.inr hab
  | resume id => exact Or.inr hab
  | create o => exact Or.inr hab
  | execute id =>
    right
    show List.Sublist [a, b] (if m.isUp then m.execPending id else m).pendingQueue
    split_ifs with hup
    · rcases execPending_pendingQueue m id with hh | hh
      · rw [hh]
        exact hab
      · rw [hh]
        exact hab.trans (List.sublist_append_left _ _)
    · exact hab
  | retryPending id =>
    right
    show List.Sublist [a, b] (m.execPending id).pendingQueue
    rcases execPending_pendingQueue m id with hh | hh
    · rw [hh]
      exact hab
    · rw [hh]
      exact hab.trans (List.sublist_append_left _ _)
  | start id =>
    simp only [MasterState.exec]
    split_ifs with hg
    · by_cases hxa : a = id
      · left
        subst hxa
        obtain ⟨w, hw, _⟩ := MasterState.statusOf_eq m a _ haP
        exact MasterState.statusOf_applyTransition_self m a STATUS.RUNNING w hw
      · right
        have hhead := hg.2.2.1
        rcases hqq : m.pendingQueue with _ | ⟨h0, rest⟩
        · rw [hqq] at hhead
          cases hhead
        · rw [hqq] at hhead
          simp only [List.head?_cons, Option.some.injEq] at hhead
          subst hhead
          have hidP : m.statusOf h0 = some STATUS.PENDING := by
            apply hmem
            rw [hqq]
            exact List.mem_cons_self _ _
          obtain ⟨w, hw, hws⟩ := MasterState.statusOf_eq m h0 _ hidP
          have hq' : (m.applyTransition h0 STATUS.RUNNING).pendingQueue = rest := by
            rw [MasterState.applyTransition_pendingQueue m h0 STATUS.RUNNING w hw, hws]
            simp [hqq]
          rw [hq']
          have hab' : List.Sublist [a, b] (h0 :: rest) := by
            rw [hqq] at hab
            exact hab
          cases hab' with
          | cons _ h => exact h
          | cons₂ _ h => exact absurd rfl hxa
    · exact Or.inr hab
  | complete id =>
    simp only [MasterState.exec]
    split_ifs with hg
    · right
      obtain ⟨w, hw, hws⟩ := MasterState.statusOf_eq m id _ hg
      rw [MasterState.applyTransition_pendingQueue m id STATUS.COMPLETE w hw, hws]
      simpa using hab
    · exact Or.inr hab
  | error id =>
    simp only [MasterState.exec]
    split_ifs with hg
    · right
      obtain ⟨w, hw, hws⟩ := MasterState.statusOf_eq m id _ hg
      rw [MasterState.retryAdjust_pendingQueue,
        MasterState.applyTransition_pendingQueue m id STATUS.ERROR w hw, hws]
      simpa using hab
    · exact Or.inr hab
  | timeout id =>
    simp only [MasterState.exec]
    split_ifs with hg
    · right
      obtain ⟨w, hw, hws⟩ := MasterState.statusOf_eq m id _ hg
      rw [MasterState.retryAdjust_pendingQueue,
        MasterState.applyTransition_pendingQueue m id STATUS.TIMEOUT w hw, hws]
      simpa using hab
    · exact Or.inr hab
  | cancel id =>
    simp only [MasterState.exec]
    split_ifs with hg
    · right
      have hns := hsafe id rfl
      rcases hg with hg | hg
      · exact (hns hg).elim
      · obtain ⟨w, hw, hws⟩ := MasterState.statusOf_eq m id _ hg
        rw [MasterState.applyTransition_pendingQueue m id STATUS.CANCELLED w hw, hws]
        simpa using hab
    · exact Or.inr hab

/-- C3 amended.  FIFO admission holds provided no Worker is cancelled while
PENDING: if A first enters PENDING strictly before B does and B ever reaches
RUNNING, then A reached RUNNING no later than B.  (The admission loop always
starts the head of the PENDING queue; cancelling a PENDING Worker other than
the queue head breaks this, because `Master.updateStatus` dequeues the HEAD
of the queue rather than the cancelled Worker's own entry — see the
counterexample.) -/
theorem fifo_admission (options : MasterOptions) (t : List MEvent) (a b : Nat)
    (hnc : noPendingCancel options t = true) (pa pb jb : Nat)
    (hpa : firstReach options t a STATUS.PENDING = some pa)
    (hpb : firstReach options t b STATUS.PENDING = some pb)
    (hord : pa < pb)
    (hjb : firstReach options t b STATUS.RUNNING = some jb) :
    ∃ ja, firstReach options t a STATUS.RUNNING = some ja ∧ ja ≤ jb := by
  obtain ⟨hpaT, hpaLt, hpaMin⟩ := firstIdx_spec _ _ _ hpa
  obtain ⟨hpbT, hpbLt, hpbMin⟩ := firstIdx_spec _ _ _ hpb
  obtain ⟨hjbT, hjbLt, hjbMin⟩ := firstIdx_spec _ _ _ hjb
  have hpaP : (runTrace options (t.take pa)).statusOf a = some STATUS.PENDING :=
    of_decide_eq_true hpaT
  have hpbP : (runTrace options (t.take pb)).statusOf b = some STATUS.PENDING :=
    of_decide_eq_true hpbT
  have hjbR : (runTrace options (t.take jb)).statusOf b = some STATUS.RUNNING :=
    of_decide_eq_true hjbT
  have hjbMin' : ∀ i, i < jb →
      (runTrace options (t.take i)).statusOf b ≠ some STATUS.RUNNING := by
    intro i hi
    have hh := hjbMin i hi
    rw [decide_eq_false_iff_not] at hh
    exact hh
  have hpbMin' : ∀ i, i < pb →
      (runTrace options (t.take i)).statusOf b ≠ some STATUS.PENDING := by
    intro i hi
    have hh := hpbMin i hi
    rw [decide_eq_false_iff_not] at hh
    exact hh
  have hjb0 : jb ≠ 0 := by
    intro hh
    subst hh
    have hz : (runTrace options (t.take 0)).statusOf b = none := rfl
    rw [hz] at hjbR
    cases hjbR
  obtain ⟨jp, rfl⟩ : ∃ jp, jb = jp + 1 := ⟨jb - 1, by omega⟩
  have hjpNR : (runTrace options (t.take jp)).statusOf b ≠ some STATUS.RUNNING :=
    hjbMin' jp (Nat.lt_succ_self _)
  rcases hget : t.get? jp with _ | e
  · exfalso
    rw [runTrace_take_stable options t jp hget] at hjbR
    exact hjpNR hjbR
  have hstep : runTrace options (t.take (jp+1)) = (runTrace options (t.take jp)).exec e :=
    runTrace_take_succ options t jp e hget
  rw [hstep] at hjbR
  have hhead : (runTrace options (t.take jp)).pendingQueue.head? = some b :=
    became_running _ e b hjpNR hjbR
  have hQjp := queueInv_runTrace options t hnc jp
  have hbmem : b ∈ (runTrace options (t.take jp)).pendingQueue := by
    rcases hqq : (runTrace options (t.take jp)).pendingQueue with _ | ⟨h0, rest⟩
    · rw [hqq] at hhead
      cases hhead
    · rw [hqq] at hhead
      simp only [List.head?_cons, Option.some.injEq] at hhead
      rw [hhead]
      exact List.mem_cons_self _ _
  have hbPjp : (runTrace options (t.take jp)).statusOf b = some STATUS.PENDING :=
    hQjp.2.1 b hbmem
  have hpbLe : pb ≤ jp := by
    by_contra hcon
    push_neg at hcon
    exact hpbMin' jp hcon hbPjp
  by_cases hra : ∃ i, i ≤ jp + 1 ∧ (runTrace options (t.take i)).statusOf a = some STATUS.RUNNING
  · obtain ⟨i, hile, hiR⟩ := hra
    have hilt : i < t.length + 1 := by omega
    obtain ⟨ja, hja, hjale⟩ := firstIdx_le_of_true
      (fun k => decide ((runTrace options (t.take k)).statusOf a = some STATUS.RUNNING))
      (t.length + 1) i hilt (decide_eq_true hiR)
    exact ⟨ja, hja, by omega⟩
  · exfalso
    push_neg at hra
    have hInv : ∀ d k, k = pb + d → k ≤ jp →
        List.Sublist [a, b] ((runTrace options (t.take k)).pendingQueue) := by
      intro d
      induction d with
      | zero =>
        intro k hk _
        have hkpb : k = pb := by omega
        subst hkpb
        have hpb0 : k ≠ 0 := by
          intro hh
          subst hh
          have hz : (runTrace options (t.take 0)).statusOf b = none := rfl
          rw [hz] at hpbP
          cases hpbP
        obtain ⟨pq, rfl⟩ : ∃ pq, k = pq + 1 := ⟨k - 1, by omega⟩
        have hbNP : (runTrace options (t.take pq)).statusOf b ≠ some STATUS.PENDING :=
          hpbMin' pq (Nat.lt_succ_self _)
        rcases hget' : t.get? pq with _ | e'
        · exfalso
          rw [runTrace_take_stable options t pq hget'] at hpbP
          exact hbNP hpbP
        have hstep' : runTrace options (t.take (pq+1))
            = (runTrace options (t.take pq)).exec e' :=
          runTrace_take_succ options t pq e' hget'
        rw [hstep'] at hpbP ⊢
        have hqeq := became_pending _ e' b hbNP hpbP
        rw [hqeq]
        have hanr : ∀ j, j ≤ pq → (runTrace options (t.take j)).statusOf a ≠ some STATUS.RUNNING := by
          intro j hj
          exact hra j (by omega)
        have haPpq : (runTrace options (t.take pq)).statusOf a = some STATUS.PENDING :=
          pending_until options t hnc a pa hpaP pq (by omega) hanr
        have haq : a ∈ (runTrace options (t.take pq)).pendingQueue :=
          (queueInv_runTrace options t hnc pq).2.2 a haPpq
        have h1 : List.Sublist [a] ((runTrace options (t.take pq)).pendingQueue) :=
          List.singleton_sublist.mpr haq
        exact List.Sublist.append h1 (List.Sublist.refl [b])
      | succ d ih =>
        intro k hk hkle
        obtain rfl : k = (pb + d) + 1 := by omega
        have hprev := ih (pb + d) rfl (by omega)
        rcases hget' : t.get? (pb + d) with _ | e'
        · rw [runTrace_take_stable options t (pb + d) hget']
          exact hprev
        · rw [runTrace_take_succ options t (pb + d) e' hget']
          rcases sublist_ab_step _ e' a b (queueInv_runTrace options t hnc (pb + d))
              (noPendingCancel_safe options t hnc (pb + d) e' hget') hprev with hh | hh
          · exfalso
            apply hra (pb + d + 1) (by omega)
            rw [runTrace_take_succ options t (pb + d) e' hget']
            exact hh
          · exact hh
    have hfin := hInv (jp - pb) jp (by omega) (Nat.le_refl _)
    rcases hqq : (runTrace options (t.take jp)).pendingQueue with _ | ⟨h0, rest⟩
    · rw [hqq] at hhead
      cases hhead
    · rw [hqq] at hhead
      simp only [List.head?_cons, Option.some.injEq] at hhead
      rw [hqq, hhead] at hfin
      have hnd : (b :: rest).Nodup := by
        have := hQjp.1
        rw [hqq, hhead] at this
        exact this
      cases hfin with
      | cons _ h =>
        have hbr : b ∈ rest := h.subset (by simp)
        exact (List.nodup_cons.mp hnd).1 hbr
      | cons₂ _ h =>
        exact hpbMin' pa hord hpaP

/-- Trace refuting C3 as stated: workers 0, 1, 2 are created and executed in
order (PENDING queue [0, 1, 2]); cancelling worker 1 — which is PENDING but
not the queue head — makes `Master.updateStatus` dequeue the head, silently
dropping worker 0's entry; worker 1 is re-executed and admitted, then worker
2 is admitted, while worker 0 stays PENDING and is no longer queued. -/
def fifoTrace : List MEvent :=
  [MEvent.startup, MEvent.create {}, MEvent.create {}, MEvent.create {},
   MEvent.execute 0, MEvent.execute 1, MEvent.execute 2,
   MEvent.cancel 1, MEvent.execute 1, MEvent.start 1, MEvent.start 2]

/-- C3 counterexample.  In `fifoTrace`, worker 0 enters PENDING strictly
before worker 2 (steps 5 and 7), neither worker 0 nor worker 2 is ever
cancelled, capacity is free at every admission, yet worker 2 reaches RUNNING
(step 11) while worker 0 never does: worker 0 is still PENDING at the end
but absent from the PENDING queue, so no later admission can ever start it. -/
theorem fifo_counterexample :
    firstReach {} fifoTrace 0 STATUS.PENDING = some 5
    ∧ firstReach {} fifoTrace 2 STATUS.PENDING = some 7
    ∧ MEvent.cancel 0 ∉ fifoTrace
    ∧ MEvent.cancel 2 ∉ fifoTrace
    ∧ firstReach {} fifoTrace 2 STATUS.RUNNING = some 11
    ∧ firstReach {} fifoTrace 0 STATUS.RUNNING = none
    ∧ (runTrace {} fifoTrace).statusOf 0 = some STATUS.PENDING
    ∧ (0 : Nat) ∉ (runTrace {} fifoTrace).pendingQueue := by
  decide

/-- Witness for `fifo_admission`: two workers executed in order under
concurrency 2 with no cancellations are admitted in order. -/
theorem fifo_admission_witness :
    firstReach {} [MEvent.startup, MEvent.create {}, MEvent.create {}, MEvent.execute 0,
      MEvent.execute 1, MEvent.start 0, MEvent.start 1] 0 STATUS.RUNNING = some 6
    ∧ (6 : Nat) ≤ 7 := by
  obtain ⟨ja, hja, hle⟩ := fifo_admission {} [MEvent.startup, MEvent.create {},
    MEvent.create {}, MEvent.execute 0, MEvent.execute 1, MEvent.start 0, MEvent.start 1]
    0 1 (by decide) 4 5 7 (by decide) (by decide) (by decide) (by decide)
  exact ⟨by decide, by omega⟩
